import Mathlib

/-!
Verification development for the phylogenetic tree similarity index
(`catalog`): a shallow embedding in Lean 4 of the Newick-tree encoder
(`catalog/tree_embeddings.py`), the node-graph builder
(`catalog/tree_parser.py`), the traversal operations
(`catalog/tree_search.py`) and the similarity search
(`catalog/tree_db.py`), together with theorems settling the spec's
claims about them.

Modelling conventions:
* Python floats are modelled as exact rationals (`ℚ`); the two places the
  code takes a square root (`np.std`, `np.linalg.norm`) are modelled over
  `ℝ` with `Real.sqrt`.
* `Bio.Phylo`'s parse product (a clade tree) is the inductive `Clade`
  below; a clade is terminal iff its child list is empty, exactly as in
  BioPython's `Clade.is_terminal`.
* Python's built-in `hash` on strings is salted per process
  (`PYTHONHASHSEED`); it is modelled as an explicit parameter
  `h : String → ℤ`.  Concrete instantiations used in counterexamples are
  FNV-1a (one of the stable hashes the spec itself suggests) with an
  explicit seed.
* `uuid.uuid4()` draws are modelled as an explicit supply `gen : ℕ → String`
  (the k-th call returns `gen k`).
* Unbounded `while` loops over the id-linked node graph are modelled with
  explicit fuel; the fuel chosen in the top-level definitions
  (the number of stored nodes) is shown to suffice on well-formed graphs.
-/

/-- Parse product of `Bio.Phylo.read(handle, "newick")`: a clade with an
optional label, an optional branch length (to its parent) and an ordered
child list.  A clade is terminal iff it has no children. -/
inductive Clade : Type where
  | mk : Option String → Option ℚ → List Clade → Clade

/-- Label of a clade (`clade.name`). -/
def Clade.cname : Clade → Option String
  | .mk n _ _ => n

/-- Branch length of a clade (`clade.branch_length`), `none` when unset. -/
def Clade.bl : Clade → Option ℚ
  | .mk _ b _ => b

/-- Ordered child list of a clade (`clade.clades`). -/
def Clade.children : Clade → List Clade
  | .mk _ _ cs => cs

/-- BioPython `clade.is_terminal()`: no children. -/
def Clade.isTerminal (c : Clade) : Bool := c.children.isEmpty

/-- Structural induction principle for the nested inductive `Clade`. -/
theorem Clade.ind (P : Clade → Prop)
    (h : ∀ n b cs, (∀ c ∈ cs, P c) → P (.mk n b cs)) : ∀ c, P c :=
  fun c =>
    Clade.rec (motive_1 := P) (motive_2 := fun l => ∀ x ∈ l, P x)
      (fun n b cs ih => h n b cs ih)
      (fun x hx => absurd hx (List.not_mem_nil x))
      (fun _ _ hhd htl x hx => by
        rcases List.mem_cons.mp hx with h1 | h2
        · exact h1 ▸ hhd
        · exact htl x h2)
      c

mutual

/-- BioPython `tree.find_clades()` in its default pre-order: the clade
itself followed by the pre-order listings of its children. -/
def Clade.findClades : Clade → List Clade
  | .mk n b cs => .mk n b cs :: Clade.findCladesList cs

/-- Pre-order listing of a list of sibling clades. -/
def Clade.findCladesList : List Clade → List Clade
  | [] => []
  | c :: rest => c.findClades ++ Clade.findCladesList rest

end

mutual

/-- Helper `get_subtree_size` of `phylo2vec_encode`: number of terminal
clades (leaves) in the subtree. -/
def Clade.subtreeSize : Clade → ℕ
  | .mk _ _ [] => 1
  | .mk _ _ (c :: rest) => Clade.subtreeSizeList (c :: rest)

/-- Sum of `subtreeSize` over a non-empty sibling list. -/
def Clade.subtreeSizeList : List Clade → ℕ
  | [] => 0
  | c :: rest => c.subtreeSize + Clade.subtreeSizeList rest

end

mutual

/-- Depths (in edges from the root, i.e. `len(tree.get_path(leaf))`) of the
leaves of the subtree, in pre-order, when the subtree root sits at depth
`d`. -/
def Clade.leafDepthsFrom : Clade → ℕ → List ℕ
  | .mk _ _ [], d => [d]
  | .mk _ _ (c :: rest), d => Clade.leafDepthsFromList (c :: rest) (d + 1)

/-- Leaf depths of a sibling list whose members sit at depth `d`. -/
def Clade.leafDepthsFromList : List Clade → ℕ → List ℕ
  | [], _ => []
  | c :: rest, d => c.leafDepthsFrom d ++ Clade.leafDepthsFromList rest d

end

/-- Leaf depths `[len(tree.get_path(leaf)) for leaf in tree.get_terminals()]`
of the whole tree. -/
def Clade.leafDepths (c : Clade) : List ℕ := c.leafDepthsFrom 0

/-- Number of leaves `len(tree.get_terminals())`. -/
def Clade.numLeaves (c : Clade) : ℕ := c.subtreeSize

/-- Number of clades `len(list(tree.find_clades()))`. -/
def Clade.numTotal (c : Clade) : ℕ := c.findClades.length

/-- Number of internal (non-terminal) clades. -/
def Clade.numInternal (c : Clade) : ℕ :=
  (c.findClades.filter (fun cl => ¬ cl.isTerminal)).length

/-- Maximum of a list of rationals, `0` on the empty list (models `np.max`
on the arrays of this code, which are non-empty there). -/
def listMaxQ : List ℚ → ℚ
  | [] => 0
  | x :: xs => xs.foldl max x

/-- Minimum of a list of rationals, `0` on the empty list (models `np.min`). -/
def listMinQ : List ℚ → ℚ
  | [] => 0
  | x :: xs => xs.foldl min x

/-- Python `int(q)` for a rational: truncation toward zero. -/
def intTrunc (q : ℚ) : ℤ := if q < 0 then ⌈q⌉ else ⌊q⌋

/-- Python `max(leaf_depths)` guarded by `if leaf_depths else 0`. -/
def listMaxNat : List ℕ → ℕ
  | [] => 0
  | x :: xs => xs.foldl max x

/-- Python `min(leaf_depths)` guarded by `if leaf_depths else 0`. -/
def listMinNat : List ℕ → ℕ
  | [] => 0
  | x :: xs => xs.foldl min x

/-- Mean of a list of naturals as a rational, `0` on the empty list. -/
def listMeanNat (l : List ℕ) : ℚ :=
  if l.isEmpty then 0 else ((l.sum : ℚ) / l.length)

/-- Mean of a list of rationals, `0` on the empty list. -/
def listMeanQ (l : List ℚ) : ℚ :=
  if l.isEmpty then 0 else (l.sum / l.length)

/-- Ascending sort of naturals (Python `sorted` / `.sort()`). -/
def sortNat (l : List ℕ) : List ℕ := l.mergeSort (fun a b => a ≤ b)

/-- Ascending sort of rationals (Python `sorted` / `np.sort`). -/
def sortQ (l : List ℚ) : List ℚ := l.mergeSort (fun a b => a ≤ b)

/-- Ascending sort of strings (Python `sorted` on `str`). -/
def sortStr (l : List String) : List String := l.mergeSort (fun a b => a ≤ b)

/-- Python `",".join(parts)`. -/
def joinComma : List String → String
  | [] => ""
  | [s] => s
  | s :: rest => s ++ "," ++ joinComma rest

/-- The truthy branch lengths of the tree, in `find_clades` order: models
`[c.branch_length for c in clades if c.branch_length]` (both `None` and
`0.0` are falsy). -/
def Clade.branchLengths (c : Clade) : List ℚ :=
  c.findClades.filterMap (fun cl =>
    match cl.bl with
    | some b => if b = 0 then none else some b
    | none => none)

/-- Feature group 1 of `phylo2vec_encode` (dims 0..31): basic tree
statistics, exactly as written by the source (`/50`, `/50`, `/100`, the
internal/leaf ratio, then four depth statistics over `/20`). -/
def basicStats (c : Clade) : ℕ → ℚ := fun i =>
  if i = 0 then (c.numLeaves : ℚ) / 50
  else if i = 1 then (c.numInternal : ℚ) / 50
  else if i = 2 then (c.numTotal : ℚ) / 100
  else if i = 3 then (c.numInternal : ℚ) / (max ((c.numLeaves : ℤ) - 1) 1 : ℤ)
  else if i = 4 then (listMaxNat c.leafDepths : ℚ) / 20
  else if i = 5 then (listMinNat c.leafDepths : ℚ) / 20
  else if i = 6 then listMeanNat c.leafDepths / 20
  else if i = 7 then
    ((listMaxNat c.leafDepths : ℚ) - (listMinNat c.leafDepths : ℚ)) / 20
  else 0

/-- Feature group 2 (dims 32..63): leaf-depth histogram, bin `k` counts the
leaves at depth exactly `k` (depths `≥ 32` are dropped), normalised by the
number of leaves. -/
def depthHist (c : Clade) : ℕ → ℚ := fun k =>
  let ld := c.leafDepths
  let raw : ℚ := ((ld.filter (fun d => d = k)).length : ℚ)
  if 0 < c.numLeaves then raw / (c.numLeaves : ℚ) else raw

/-- Balance ratio of one internal clade with at least two children:
`sizes[0] / max(sizes[-1], 1)` over the ascending-sorted child subtree
sizes. -/
def Clade.balanceOf (cl : Clade) : ℚ :=
  let sizes := sortNat (cl.children.map Clade.subtreeSize)
  (sizes.headD 0 : ℚ) / (max (sizes.getLastD 0) 1 : ℕ)

/-- Balance ratios collected over the internal nodes (in `find_clades`
order); the source's `len(node.clades) >= 2` filter subsumes its
non-terminal filter. -/
def Clade.balanceList (c : Clade) : List ℚ :=
  (c.findClades.filter (fun cl => 2 ≤ cl.children.length)).map Clade.balanceOf

/-- Feature group 3 (dims 64..95): histogram of balance ratios over bins
`min(int(balance * 31), 31)`, normalised by the number of ratios when
non-empty. -/
def sizeHist (c : Clade) : ℕ → ℚ := fun k =>
  let bals := c.balanceList
  let raw : ℚ :=
    ((bals.filter (fun b => min (intTrunc (b * 31)) 31 = (k : ℤ))).length : ℚ)
  if bals.isEmpty then raw else raw / (bals.length : ℚ)

mutual

/-- Recursive accumulator of `encode_splits`: contribution of the subtree
rooted at `c` sitting at depth `d` to the 64-slot split-pattern array
(`nl` is the whole tree's leaf count). -/
def splitAcc (nl : ℕ) : Clade → ℕ → (ℕ → ℚ)
  | .mk _ _ [], _ => fun _ => 0
  | .mk _ _ (c0 :: rest), d =>
    if d ≥ 16 then fun _ => 0
    else
      let cs := c0 :: rest
      let sizes := sortNat (cs.map Clade.subtreeSize)
      let contrib : ℕ → ℚ := fun j =>
        if 4 * d < 64 then
          (if j = 4 * d then 1 else 0)
          + (if j = 4 * d + 1 then (cs.length : ℚ) / 10 else 0)
          + (if 2 ≤ sizes.length ∧ j = 4 * d + 2 then
              (sizes.headD 0 : ℚ) / (max nl 1 : ℕ) else 0)
          + (if 2 ≤ sizes.length ∧ j = 4 * d + 3 then
              (sizes.getLastD 0 : ℚ) / (max nl 1 : ℕ) else 0)
        else 0
      fun j => contrib j + splitAccList nl cs (d + 1) j

/-- Sum of `splitAcc` over a sibling list. -/
def splitAccList (nl : ℕ) : List Clade → ℕ → (ℕ → ℚ)
  | [], _ => fun _ => 0
  | c :: rest, d => fun j => splitAcc nl c d j + splitAccList nl rest d j

end

/-- Feature group 4 (dims 96..159): the split-pattern array, normalised by
its maximum when positive. -/
def splitPatterns (c : Clade) : ℕ → ℚ := fun j =>
  let raw := splitAcc c.numLeaves c 0
  let mx := listMaxQ ((List.range 64).map raw)
  if 0 < mx then raw j / mx else raw j

mutual

/-- Recursive accumulator of `topology_hash`: for the subtree rooted at
`c` reached along child-index path `path`, returns the contribution to the
64 hash bins together with the canonical signature of the subtree.  A leaf
adds `1` at bin `hash(path) % 64` and has signature `"L"`; an internal
node adds the contributions of its children (child `i` extends the path by
`str(i)`), sorts the child signatures, and adds `1/2` at
`hash(signature) % 64`. -/
def topoAcc (h : String → ℤ) : Clade → String → ((ℕ → ℚ) × String)
  | .mk _ _ [], path =>
    (fun j => if (j : ℤ) = (h path) % 64 then 1 else 0, "L")
  | .mk _ _ (c0 :: rest), path =>
    let (vec, sigs) := topoAccList h (c0 :: rest) path 0
    let sig := "(" ++ joinComma (sortStr sigs) ++ ")"
    (fun j => vec j + (if (j : ℤ) = (h sig) % 64 then 1/2 else 0), sig)

/-- Accumulation of `topoAcc` over a sibling list, child index `i` onward. -/
def topoAccList (h : String → ℤ) :
    List Clade → String → ℕ → ((ℕ → ℚ) × List String)
  | [], _, _ => (fun _ => 0, [])
  | c :: rest, path, i =>
    let (v1, s1) := topoAcc h c (path ++ toString i)
    let (v2, s2) := topoAccList h rest path (i + 1)
    (fun j => v1 j + v2 j, s1 :: s2)

end

/-- Feature group 5 (dims 160..223): the topology-hash bins, normalised by
their maximum when positive. -/
def topoHashVec (h : String → ℤ) (c : Clade) : ℕ → ℚ := fun j =>
  let raw := (topoAcc h c "").1
  let mx := listMaxQ ((List.range 64).map raw)
  if 0 < mx then raw j / mx else raw j

/-- Median of a list of rationals as computed by `np.median`: middle
element of the ascending sort, or the mean of the two middle elements. -/
def medianQ (l : List ℚ) : ℚ :=
  let s := sortQ l
  if s.isEmpty then 0
  else if s.length % 2 = 1 then s.getD (s.length / 2) 0
  else (s.getD (s.length / 2 - 1) 0 + s.getD (s.length / 2) 0) / 2

/-- Population variance (the square of `np.std`) of a list of rationals. -/
def varQ (l : List ℚ) : ℚ :=
  if l.isEmpty then 0
  else ((l.map (fun x => (x - listMeanQ l) ^ 2)).sum / l.length)

/-- Feature group 6 (dims 224..255) except slot 1 (the standard deviation,
which is irrational and lives in `branchStd`): branch-length statistics
scaled by `0.1`, plus a 26-bin histogram of branch lengths normalised by
their maximum. -/
def branchFeat (c : Clade) : ℕ → ℚ := fun k =>
  let bl := c.branchLengths
  if bl.isEmpty then 0
  else
    let mx := listMaxQ bl
    if k = 0 then listMeanQ bl * (1/10)
    else if k = 2 then listMinQ bl * (1/10)
    else if k = 3 then mx * (1/10)
    else if k = 4 then medianQ bl * (1/10)
    else if k = 5 then bl.sum * (1/10) * (1/100)
    else if 6 ≤ k ∧ k ≤ 31 then
      (if 0 < mx then
        ((bl.filter (fun b =>
            min (intTrunc (b / mx * 25)) 25 = (k : ℤ) - 6)).length : ℚ)
          * (1/10) / (bl.length : ℚ)
      else 0)
    else 0

/-- Slot 225 of the embedding: `np.std(branch_arr) if len > 1 else 0`,
scaled by `0.1`.  Irrational in general, hence defined over `ℝ`. -/
noncomputable def branchStd (c : Clade) : ℝ :=
  let bl := c.branchLengths
  if bl.isEmpty then 0
  else (if 1 < bl.length then Real.sqrt (varQ bl) else 0) * (1/10)

/-- The unnormalised 256-slot embedding of `phylo2vec_encode`, rational
part: every slot except 225 (see `branchStd`).  Index `i ≥ 256` is `0`. -/
def embedQ (h : String → ℤ) (c : Clade) : ℕ → ℚ := fun i =>
  if i < 32 then basicStats c i
  else if i < 64 then depthHist c (i - 32)
  else if i < 96 then sizeHist c (i - 64)
  else if i < 160 then splitPatterns c (i - 96)
  else if i < 224 then topoHashVec h c (i - 160)
  else if i < 256 then branchFeat c (i - 224)
  else 0

/-- The unnormalised 256-slot embedding over `ℝ`: `embedQ` with slot 225
replaced by the standard-deviation term. -/
noncomputable def embedPre (h : String → ℤ) (c : Clade) : ℕ → ℝ := fun i =>
  if i = 225 then branchStd c else ((embedQ h c i : ℚ) : ℝ)

/-- Euclidean norm `np.linalg.norm` over the 256 slots. -/
noncomputable def norm256 (v : ℕ → ℝ) : ℝ :=
  Real.sqrt (∑ i ∈ Finset.range 256, (v i) ^ 2)

/-- The encoder `phylo2vec_encode(newick, normalize)`, modelled on the
parse product: the all-zero vector when the tree has fewer than two
leaves, otherwise the 256-slot embedding, divided by its Euclidean norm
when `normalize` is set and the norm is positive. -/
noncomputable def phylo2vec_encode (h : String → ℤ) (c : Clade)
    (normalize : Bool) : ℕ → ℝ :=
  if c.numLeaves < 2 then fun _ => 0
  else
    let v := embedPre h c
    if normalize then
      (if 0 < norm256 v then fun i => v i / norm256 v else v)
    else v

/-- Cosine similarity `tree_similarity` between two 256-slot embeddings
(the two inputs have equal dimension here, so the padding branch of the
source is the identity): `0` when either norm vanishes. -/
noncomputable def tree_similarity (v w : ℕ → ℝ) : ℝ :=
  if norm256 v = 0 ∨ norm256 w = 0 then 0
  else (∑ i ∈ Finset.range 256, v i * w i) / (norm256 v * norm256 w)

/-- FNV-1a over the code points of a string, with an explicit seed (offset
basis), reduced modulo `2 ^ 64`.  This is a concrete stable 64-bit string
hash of the family the spec itself suggests; two different seeds model the
per-process salt of Python's built-in `hash`. -/
def fnvSeed (seed : ℕ) (s : String) : ℤ :=
  ((s.data.map Char.toNat).foldl
    (fun acc b => ((acc ^^^ b) * 1099511628211) % (2 ^ 64)) seed : ℕ)

/-- FNV-1a with its standard 64-bit offset basis. -/
def fnv64 : String → ℤ := fnvSeed 14695981039346656037

/-- Parse product of `"(A,B);"`. -/
def cladeAB : Clade :=
  .mk none none [.mk (some "A") none [], .mk (some "B") none []]

/-- Parse product of `"(B,A);"`. -/
def cladeBA : Clade :=
  .mk none none [.mk (some "B") none [], .mk (some "A") none []]

/-- Parse product of `"((A,B),C);"`. -/
def cladeABC : Clade :=
  .mk none none [cladeAB, .mk (some "C") none []]

/-- Parse product of `"(C,(A,B));"`: obtained from `cladeABC` by swapping
the two children of the root. -/
def cladeCAB : Clade :=
  .mk none none [.mk (some "C") none [], cladeAB]

/-- A 256-slot vector with a non-zero slot has positive Euclidean norm. -/
theorem norm256_pos (v : ℕ → ℝ) (i : ℕ) (hi : i < 256) (hv : v i ≠ 0) :
    0 < norm256 v := by
  unfold norm256
  apply Real.sqrt_pos.mpr
  apply Finset.sum_pos' (fun j _ => sq_nonneg (v j))
  exact ⟨i, Finset.mem_range.mpr hi, pow_two_pos_of_ne_zero hv⟩

/-- If two 256-slot vectors agree at a non-zero slot and disagree at some
other slot, their normalisations (as produced by the `normalize` branch of
the encoder) differ. -/
theorem normalizedNe (u v : ℕ → ℝ) (i j : ℕ) (hi : i < 256)
    (h1 : u i = v i) (h2 : u i ≠ 0) (h3 : u j ≠ v j) :
    (if 0 < norm256 u then fun k => u k / norm256 u else u) ≠
      (if 0 < norm256 v then fun k => v k / norm256 v else v) := by
  have hnu : 0 < norm256 u := norm256_pos u i hi h2
  have hvi : v i ≠ 0 := h1 ▸ h2
  have hnv : 0 < norm256 v := norm256_pos v i hi hvi
  rw [if_pos hnu, if_pos hnv]
  intro heq
  have hI := congrFun heq i
  have hJ := congrFun heq j
  simp only at hI hJ
  rw [h1] at hI
  have hnn : norm256 v = norm256 u :=
    mul_left_cancel₀ hvi ((div_eq_div_iff (ne_of_gt hnu) (ne_of_gt hnv)).mp hI)
  rw [hnn] at hJ
  exact h3 (mul_right_cancel₀ (ne_of_gt hnu)
    ((div_eq_div_iff (ne_of_gt hnu) (ne_of_gt hnu)).mp hJ))

set_option maxRecDepth 1000000

/-- Away from slot 225, the unnormalised embedding is the cast of its
rational part. -/
theorem embedPre_ne225 (h : String → ℤ) (c : Clade) (i : ℕ) (hne : i ≠ 225) :
    embedPre h c i = ((embedQ h c i : ℚ) : ℝ) := by
  simp [embedPre, hne]

/-- With `normalize=False` and at least two leaves, the encoder returns the
unnormalised embedding. -/
theorem encode_false_eq (h : String → ℤ) (c : Clade)
    (hnl : ¬ c.numLeaves < 2) :
    phylo2vec_encode h c false = embedPre h c := by
  simp [phylo2vec_encode, hnl]

/-- With `normalize=True` and at least two leaves, the encoder returns the
embedding divided by its norm when the norm is positive. -/
theorem encode_true_eq (h : String → ℤ) (c : Clade)
    (hnl : ¬ c.numLeaves < 2) :
    phylo2vec_encode h c true =
      (if 0 < norm256 (embedPre h c) then
        fun i => embedPre h c i / norm256 (embedPre h c)
      else embedPre h c) := by
  simp [phylo2vec_encode, hnl]

/-- A non-zero slot 0 of the unnormalised embedding stays non-zero after
normalisation. -/
theorem encode_true_coord0_ne (h : String → ℤ) (c : Clade)
    (hnl : ¬ c.numLeaves < 2) (h0 : embedPre h c 0 ≠ 0) :
    phylo2vec_encode h c true 0 ≠ 0 := by
  rw [encode_true_eq h c hnl]
  by_cases hp : 0 < norm256 (embedPre h c)
  · rw [if_pos hp]; exact div_ne_zero h0 (ne_of_gt hp)
  · rw [if_neg hp]; exact h0

/-- Cosine self-similarity is `1` for a vector of non-zero norm. -/
theorem tree_similarity_self (v : ℕ → ℝ) (hv : norm256 v ≠ 0) :
    tree_similarity v v = 1 := by
  unfold tree_similarity
  rw [if_neg (by tauto)]
  have hnn : 0 ≤ ∑ i ∈ Finset.range 256, (v i) ^ 2 :=
    Finset.sum_nonneg fun j _ => sq_nonneg (v j)
  have hmul : norm256 v * norm256 v = ∑ i ∈ Finset.range 256, (v i) ^ 2 :=
    Real.mul_self_sqrt hnn
  have hsum : ∑ i ∈ Finset.range 256, v i * v i
      = ∑ i ∈ Finset.range 256, (v i) ^ 2 :=
    Finset.sum_congr rfl fun j _ => (pow_two (v j)).symm
  rw [hsum, ← hmul]
  field_simp

/-- Claim C1, counterexample.  The tree `"(C,(A,B));"` is obtained from
`"((A,B),C);"` by swapping the two children of the root, yet the encoder
(with the process hash modelled by seeded FNV-1a, a stable hash of the
family the spec suggests) produces different fingerprints: the
topology-hash group bins the hash of each leaf's child-index path, and the
two trees have leaf paths `{"00","01","1"}` versus `{"0","10","11"}`. -/
theorem encode_not_child_order_invariant :
    phylo2vec_encode fnv64 cladeABC true ≠ phylo2vec_encode fnv64 cladeCAB true := by
  have h2 : ¬ cladeABC.numLeaves < 2 := by with_unfolding_all decide
  have h2' : ¬ cladeCAB.numLeaves < 2 := by with_unfolding_all decide
  rw [encode_true_eq fnv64 cladeABC h2, encode_true_eq fnv64 cladeCAB h2']
  apply normalizedNe _ _ 0 205 (by omega)
  · rw [embedPre_ne225 _ _ _ (by omega), embedPre_ne225 _ _ _ (by omega)]
    have e1 : embedQ fnv64 cladeABC 0 = 3/50 := by with_unfolding_all decide
    have e2 : embedQ fnv64 cladeCAB 0 = 3/50 := by with_unfolding_all decide
    rw [e1, e2]
  · rw [embedPre_ne225 _ _ _ (by omega)]
    have e1 : embedQ fnv64 cladeABC 0 = 3/50 := by with_unfolding_all decide
    rw [e1]
    exact Rat.cast_ne_zero.mpr (by norm_num)
  · rw [embedPre_ne225 _ _ _ (by omega), embedPre_ne225 _ _ _ (by omega)]
    have e1 : embedQ fnv64 cladeABC 205 = 1 := by with_unfolding_all decide
    have e2 : embedQ fnv64 cladeCAB 205 = 0 := by with_unfolding_all decide
    rw [e1, e2]
    simp

/-- Claim C1, amended.  Full child-order invariance fails (see
`encode_not_child_order_invariant`), but the special case stated by the
spec's scenario holds: the fingerprints of `"(A,B);"` and `"(B,A);"` are
bit-identical for every process hash and for both normalisation modes
(the swap preserves the multiset of leaf child-index paths), and their
cosine similarity is `1`. -/
theorem encode_AB_BA_identical (h : String → ℤ) (nrm : Bool) :
    phylo2vec_encode h cladeAB nrm = phylo2vec_encode h cladeBA nrm ∧
      tree_similarity (phylo2vec_encode h cladeAB true)
        (phylo2vec_encode h cladeBA true) = 1 := by
  constructor
  · with_unfolding_all rfl
  · have heq : phylo2vec_encode h cladeAB true = phylo2vec_encode h cladeBA true := by
      with_unfolding_all rfl
    rw [← heq]
    apply tree_similarity_self
    have hnl : ¬ cladeAB.numLeaves < 2 := by with_unfolding_all decide
    have h0 : phylo2vec_encode h cladeAB true 0 ≠ 0 := by
      apply encode_true_coord0_ne h cladeAB hnl
      rw [embedPre_ne225 _ _ _ (by omega)]
      have e1 : embedQ h cladeAB 0 = 1/25 := by with_unfolding_all rfl
      rw [e1]
      exact Rat.cast_ne_zero.mpr (by norm_num)
    exact ne_of_gt (norm256_pos _ 0 (by omega) h0)

/-- Claim C2.  The encoder's output depends on the seed of the string hash
used for the topology bits: the same input `"(A,B);"` encoded under two
different hash seeds (modelling two processes with different
`PYTHONHASHSEED` salts of Python's built-in `hash`) yields different
fingerprints, contradicting the spec's requirement of a fixed-seed stable
hash. -/
theorem encode_depends_on_hash_seed :
    phylo2vec_encode (fnvSeed 14695981039346656037) cladeAB true ≠
      phylo2vec_encode (fnvSeed 0) cladeAB true := by
  have h2 : ¬ cladeAB.numLeaves < 2 := by with_unfolding_all decide
  rw [encode_true_eq _ cladeAB h2, encode_true_eq _ cladeAB h2]
  apply normalizedNe _ _ 0 163 (by omega)
  · rw [embedPre_ne225 _ _ _ (by omega), embedPre_ne225 _ _ _ (by omega)]
    have e1 : embedQ (fnvSeed 14695981039346656037) cladeAB 0 = 1/25 := by
      with_unfolding_all decide
    have e2 : embedQ (fnvSeed 0) cladeAB 0 = 1/25 := by with_unfolding_all decide
    rw [e1, e2]
  · rw [embedPre_ne225 _ _ _ (by omega)]
    have e1 : embedQ (fnvSeed 14695981039346656037) cladeAB 0 = 1/25 := by
      with_unfolding_all decide
    rw [e1]
    exact Rat.cast_ne_zero.mpr (by norm_num)
  · rw [embedPre_ne225 _ _ _ (by omega), embedPre_ne225 _ _ _ (by omega)]
    have e1 : embedQ (fnvSeed 14695981039346656037) cladeAB 163 = 0 := by
      with_unfolding_all decide
    have e2 : embedQ (fnvSeed 0) cladeAB 163 = 1 := by with_unfolding_all decide
    rw [e1, e2]
    simp

/-- Claim C4, counterexample.  For the tree `"(A,B);"` (2 leaves) the
unnormalised vector has `v[0] = 2/50 = 0.04`, not `n_leaves/100 = 0.02` as
the spec's table states. -/
theorem basic_stats_counterexample :
    phylo2vec_encode fnv64 cladeAB false 0 ≠ (cladeAB.numLeaves : ℝ) / 100 := by
  rw [encode_false_eq _ _ (by with_unfolding_all decide)]
  rw [embedPre_ne225 _ _ _ (by omega)]
  have e1 : embedQ fnv64 cladeAB 0 = 1/25 := by with_unfolding_all decide
  have e2 : cladeAB.numLeaves = 2 := by with_unfolding_all decide
  rw [e1, e2]
  push_cast
  norm_num

/-- Claim C4, amended.  For every input tree with at least 2 leaves the
unnormalised vector has `v[0] = n_leaves/50`, `v[1] = n_internal/50`,
`v[2] = n_total/100`, `v[3] = n_internal / max(n_leaves - 1, 1)`,
`v[4] = max_depth/20`, `v[5] = min_depth/20`, `v[6] = mean_depth/20`,
`v[7] = (max_depth - min_depth)/20`, and slots 8..31 are zero. -/
theorem basic_stats_layout (h : String → ℤ) (c : Clade) (hc : 2 ≤ c.numLeaves) :
    phylo2vec_encode h c false 0 = (c.numLeaves : ℝ) / 50 ∧
    phylo2vec_encode h c false 1 = (c.numInternal : ℝ) / 50 ∧
    phylo2vec_encode h c false 2 = (c.numTotal : ℝ) / 100 ∧
    phylo2vec_encode h c false 3 =
      (c.numInternal : ℝ) / ((max ((c.numLeaves : ℤ) - 1) 1 : ℤ) : ℝ) ∧
    phylo2vec_encode h c false 4 = (listMaxNat c.leafDepths : ℝ) / 20 ∧
    phylo2vec_encode h c false 5 = (listMinNat c.leafDepths : ℝ) / 20 ∧
    phylo2vec_encode h c false 6 = ((listMeanNat c.leafDepths : ℚ) : ℝ) / 20 ∧
    phylo2vec_encode h c false 7 =
      ((listMaxNat c.leafDepths : ℝ) - (listMinNat c.leafDepths : ℝ)) / 20 ∧
    ∀ i, 8 ≤ i → i < 32 → phylo2vec_encode h c false i = 0 := by
  have hnl : ¬ c.numLeaves < 2 := not_lt.mpr hc
  rw [encode_false_eq h c hnl]
  refine ⟨?_, ?_, ?_, ?_, ?_, ?_, ?_, ?_, ?_⟩
  · rw [embedPre_ne225 _ _ _ (by omega)]
    norm_num [embedQ, basicStats]
  · rw [embedPre_ne225 _ _ _ (by omega)]
    norm_num [embedQ, basicStats]
  · rw [embedPre_ne225 _ _ _ (by omega)]
    norm_num [embedQ, basicStats]
  · rw [embedPre_ne225 _ _ _ (by omega)]
    norm_num [embedQ, basicStats]
  · rw [embedPre_ne225 _ _ _ (by omega)]
    norm_num [embedQ, basicStats]
  · rw [embedPre_ne225 _ _ _ (by omega)]
    norm_num [embedQ, basicStats]
  · rw [embedPre_ne225 _ _ _ (by omega)]
    norm_num [embedQ, basicStats]
  · rw [embedPre_ne225 _ _ _ (by omega)]
    norm_num [embedQ, basicStats]
  · intro i h8 h32
    rw [embedPre_ne225 _ _ _ (by omega)]
    have hne : embedQ h c i = 0 := by
      unfold embedQ
      rw [if_pos h32]
      unfold basicStats
      rw [if_neg (by omega), if_neg (by omega), if_neg (by omega)]
      rw [if_neg (by omega), if_neg (by omega), if_neg (by omega)]
      rw [if_neg (by omega), if_neg (by omega)]
    rw [hne, Rat.cast_zero]

/-- Claim C4, witness: the layout theorem applied to the concrete tree
`"(A,B);"`. -/
theorem basic_stats_layout_witness :
    2 ≤ cladeAB.numLeaves ∧
      phylo2vec_encode fnv64 cladeAB false 0 = (cladeAB.numLeaves : ℝ) / 50 :=
  ⟨by with_unfolding_all decide,
    (basic_stats_layout fnv64 cladeAB (by with_unfolding_all decide)).1⟩

mutual

/-- Canonical topology signature `topo_sig` of `_extract_tree_metrics`:
a leaf at depth `d` renders as `"L{d}"`; an internal node sorts its
children's signatures (computed at depth `d+1`) and joins them in
parentheses. -/
def topoSig : Clade → ℕ → String
  | .mk _ _ [], d => "L" ++ toString d
  | .mk _ _ (c0 :: rest), d =>
    "(" ++ joinComma (sortStr (topoSigList (c0 :: rest) (d + 1))) ++ ")"

/-- Signatures of a sibling list at depth `d`. -/
def topoSigList : List Clade → ℕ → List String
  | [], _ => []
  | c :: rest, d => topoSig c d :: topoSigList rest d

end

/-- The per-tree metric record of `_extract_tree_metrics`. -/
structure TreeMetrics where
  n_leaves : ℕ
  n_internal : ℕ
  max_depth : ℕ
  min_depth : ℕ
  avg_depth : ℚ
  depth_variance : ℤ
  avg_balance : ℚ
  balances : List ℚ
  avg_branch : ℚ
  total_branch : ℚ
  has_branches : Bool
  topology : String
  leaf_depths : List ℕ

/-- Metric extraction `_extract_tree_metrics` over the parse product. -/
def extractTreeMetrics (c : Clade) : TreeMetrics where
  n_leaves := c.numLeaves
  n_internal := c.numInternal
  max_depth := listMaxNat c.leafDepths
  min_depth := listMinNat c.leafDepths
  avg_depth := listMeanNat c.leafDepths
  depth_variance := (listMaxNat c.leafDepths : ℤ) - (listMinNat c.leafDepths : ℤ)
  avg_balance := if c.balanceList.isEmpty then 1 else listMeanQ c.balanceList
  balances := c.balanceList
  avg_branch := listMeanQ c.branchLengths
  total_branch := c.branchLengths.sum
  has_branches := ¬ c.branchLengths.isEmpty
  topology := topoSig c 0
  leaf_depths := c.leafDepths

/-- Category score `_calculate_size_similarity`: mean of the leaf-count
ratio and the internal-count ratio `min(a,b)/max(a,b,1)`. -/
def calculate_size_similarity (m1 m2 : TreeMetrics) : ℚ :=
  let leafRat : ℚ :=
    (min m1.n_leaves m2.n_leaves : ℕ) / ((max (max m1.n_leaves m2.n_leaves) 1 : ℕ) : ℚ)
  let internalRat : ℚ :=
    (min m1.n_internal m2.n_internal : ℕ)
      / ((max (max m1.n_internal m2.n_internal) 1 : ℕ) : ℚ)
  (leafRat + internalRat) / 2

/-- Category score `_calculate_depth_similarity`: mean of three
`max(0, 1 - |Δ| / max(·,·,1))` terms on maximum depth, average depth and
depth variance. -/
def calculate_depth_similarity (m1 m2 : TreeMetrics) : ℚ :=
  let mds : ℚ := max 0 (1 - |(m1.max_depth : ℚ) - (m2.max_depth : ℚ)|
    / ((max (max m1.max_depth m2.max_depth) 1 : ℕ) : ℚ))
  let ads : ℚ := max 0 (1 - |m1.avg_depth - m2.avg_depth|
    / max (max m1.avg_depth m2.avg_depth) 1)
  let vs : ℚ := max 0 (1 - |(m1.depth_variance : ℚ) - (m2.depth_variance : ℚ)|
    / max (max (m1.depth_variance : ℚ) (m2.depth_variance : ℚ)) 1)
  (mds + ads + vs) / 3

/-- Category score `_calculate_balance_similarity`:
`max(0, 1 - |avg_balance_1 - avg_balance_2|)`. -/
def calculate_balance_similarity (m1 m2 : TreeMetrics) : ℚ :=
  max 0 (1 - |m1.avg_balance - m2.avg_balance|)

/-- Category score `_calculate_topology_similarity`: `1` on equal
canonical signatures, else a normalised L1 distance between the sorted
leaf-depth lists padded with zeros to a common length. -/
def calculate_topology_similarity (m1 m2 : TreeMetrics) : ℚ :=
  if m1.topology = m2.topology then 1
  else
    let d1 := sortNat m1.leaf_depths
    let d2 := sortNat m2.leaf_depths
    let maxLen := max d1.length d2.length
    let p1 := d1 ++ List.replicate (maxLen - d1.length) 0
    let p2 := d2 ++ List.replicate (maxLen - d2.length) 0
    if maxLen = 0 then 1/2
    else
      let diffSum : ℚ := ((p1.zip p2).map (fun ab => |(ab.1 : ℚ) - (ab.2 : ℚ)|)).sum
      let maxDiff : ℚ :=
        (maxLen : ℚ) * ((max (max (listMaxNat p1) (listMaxNat p2)) 1 : ℕ) : ℚ)
      max 0 (1 - diffSum / maxDiff)

/-- Category score `_calculate_branch_similarity`: `1/2` when either tree
has no truthy branch lengths, else
`max(0, 1 - |Δmean| / max(mean_1, mean_2, 0.001))`. -/
def calculate_branch_similarity (m1 m2 : TreeMetrics) : ℚ :=
  if ¬ m1.has_branches ∨ ¬ m2.has_branches then 1/2
  else max 0 (1 - |m1.avg_branch - m2.avg_branch|
    / max (max m1.avg_branch m2.avg_branch) (1/1000))

/-- Overall score of `explain_similarity`: the weighted sum over the
weights dict `{size: 0.2, depth: 0.2, balance: 0.2, topology: 0.3,
branches: 0.1}` in its iteration order. -/
def explain_overall_score (c1 c2 : Clade) : ℚ :=
  let m1 := extractTreeMetrics c1
  let m2 := extractTreeMetrics c2
  calculate_size_similarity m1 m2 * (2/10)
    + calculate_depth_similarity m1 m2 * (2/10)
    + calculate_balance_similarity m1 m2 * (2/10)
    + calculate_topology_similarity m1 m2 * (3/10)
    + calculate_branch_similarity m1 m2 * (1/10)

/-- A clamped score `max(0, 1 - x/d)` with non-negative numerator and
positive denominator lies in the unit interval. -/
theorem unitInterval_div (x d : ℚ) (hx : 0 ≤ x) (hd : 0 < d) :
    0 ≤ max 0 (1 - x / d) ∧ max 0 (1 - x / d) ≤ 1 :=
  ⟨le_max_left 0 _,
    max_le (by norm_num) (by have : 0 ≤ x / d := div_nonneg hx hd.le; linarith)⟩

/-- A ratio `min(a,b) / max(a,b,1)` of naturals lies in the unit
interval. -/
theorem natRatio_unit (a b : ℕ) :
    0 ≤ ((min a b : ℕ) : ℚ) / ((max (max a b) 1 : ℕ) : ℚ) ∧
      ((min a b : ℕ) : ℚ) / ((max (max a b) 1 : ℕ) : ℚ) ≤ 1 := by
  have hd : (0 : ℚ) < ((max (max a b) 1 : ℕ) : ℚ) := by
    have : 1 ≤ max (max a b) 1 := le_max_right _ _
    exact_mod_cast Nat.lt_of_lt_of_le Nat.zero_lt_one this
  constructor
  · exact div_nonneg (Nat.cast_nonneg _) hd.le
  · rw [div_le_one hd]
    have : min a b ≤ max (max a b) 1 :=
      le_trans (le_trans (min_le_left a b) (le_max_left a b)) (le_max_left _ _)
    exact_mod_cast this

/-- The cast of `max n 1` is positive. -/
theorem natCastMaxOnePos (n : ℕ) : (0 : ℚ) < ((max n 1 : ℕ) : ℚ) := by
  exact_mod_cast Nat.lt_of_lt_of_le Nat.zero_lt_one (le_max_right n 1)

/-- The mean of two unit-interval scores is in the unit interval. -/
theorem mean2_unit (a b : ℚ) (ha : 0 ≤ a ∧ a ≤ 1) (hb : 0 ≤ b ∧ b ≤ 1) :
    0 ≤ (a + b) / 2 ∧ (a + b) / 2 ≤ 1 := by
  obtain ⟨ha1, ha2⟩ := ha
  obtain ⟨hb1, hb2⟩ := hb
  constructor <;> nlinarith

/-- The mean of three unit-interval scores is in the unit interval. -/
theorem mean3_unit (a b c : ℚ) (ha : 0 ≤ a ∧ a ≤ 1) (hb : 0 ≤ b ∧ b ≤ 1)
    (hc : 0 ≤ c ∧ c ≤ 1) :
    0 ≤ (a + b + c) / 3 ∧ (a + b + c) / 3 ≤ 1 := by
  obtain ⟨ha1, ha2⟩ := ha
  obtain ⟨hb1, hb2⟩ := hb
  obtain ⟨hc1, hc2⟩ := hc
  constructor <;> nlinarith

/-- A weighted sum with weights `0.2, 0.2, 0.2, 0.3, 0.1` of five scores in
the unit interval lies in the unit interval. -/
theorem weightedSum_unit (a b c d e : ℚ) (ha : 0 ≤ a ∧ a ≤ 1)
    (hb : 0 ≤ b ∧ b ≤ 1) (hc : 0 ≤ c ∧ c ≤ 1) (hd : 0 ≤ d ∧ d ≤ 1)
    (he : 0 ≤ e ∧ e ≤ 1) :
    0 ≤ a * (2/10) + b * (2/10) + c * (2/10) + d * (3/10) + e * (1/10) ∧
      a * (2/10) + b * (2/10) + c * (2/10) + d * (3/10) + e * (1/10) ≤ 1 := by
  obtain ⟨ha1, ha2⟩ := ha
  obtain ⟨hb1, hb2⟩ := hb
  obtain ⟨hc1, hc2⟩ := hc
  obtain ⟨hd1, hd2⟩ := hd
  obtain ⟨he1, he2⟩ := he
  constructor <;> nlinarith

/-- Claim C6.  For every pair of parse products, the five category scores
of `explain_similarity` lie in `[0,1]`, the overall score is the weighted
sum with weights `0.2, 0.2, 0.2, 0.3, 0.1`, and hence the overall score
also lies in `[0,1]`. -/
theorem explain_similarity_bounds (c1 c2 : Clade) :
    (0 ≤ calculate_size_similarity (extractTreeMetrics c1) (extractTreeMetrics c2) ∧
      calculate_size_similarity (extractTreeMetrics c1) (extractTreeMetrics c2) ≤ 1) ∧
    (0 ≤ calculate_depth_similarity (extractTreeMetrics c1) (extractTreeMetrics c2) ∧
      calculate_depth_similarity (extractTreeMetrics c1) (extractTreeMetrics c2) ≤ 1) ∧
    (0 ≤ calculate_balance_similarity (extractTreeMetrics c1) (extractTreeMetrics c2) ∧
      calculate_balance_similarity (extractTreeMetrics c1) (extractTreeMetrics c2) ≤ 1) ∧
    (0 ≤ calculate_topology_similarity (extractTreeMetrics c1) (extractTreeMetrics c2) ∧
      calculate_topology_similarity (extractTreeMetrics c1) (extractTreeMetrics c2) ≤ 1) ∧
    (0 ≤ calculate_branch_similarity (extractTreeMetrics c1) (extractTreeMetrics c2) ∧
      calculate_branch_similarity (extractTreeMetrics c1) (extractTreeMetrics c2) ≤ 1) ∧
    explain_overall_score c1 c2 =
      calculate_size_similarity (extractTreeMetrics c1) (extractTreeMetrics c2) * (2/10)
      + calculate_depth_similarity (extractTreeMetrics c1) (extractTreeMetrics c2) * (2/10)
      + calculate_balance_similarity (extractTreeMetrics c1) (extractTreeMetrics c2) * (2/10)
      + calculate_topology_similarity (extractTreeMetrics c1) (extractTreeMetrics c2) * (3/10)
      + calculate_branch_similarity (extractTreeMetrics c1) (extractTreeMetrics c2) * (1/10) ∧
    0 ≤ explain_overall_score c1 c2 ∧ explain_overall_score c1 c2 ≤ 1 := by
  have hsize : 0 ≤ calculate_size_similarity (extractTreeMetrics c1) (extractTreeMetrics c2) ∧
      calculate_size_similarity (extractTreeMetrics c1) (extractTreeMetrics c2) ≤ 1 := by
    unfold calculate_size_similarity
    simp only
    exact mean2_unit _ _ (natRatio_unit _ _) (natRatio_unit _ _)
  have hdepth : 0 ≤ calculate_depth_similarity (extractTreeMetrics c1) (extractTreeMetrics c2) ∧
      calculate_depth_similarity (extractTreeMetrics c1) (extractTreeMetrics c2) ≤ 1 := by
    unfold calculate_depth_similarity
    have d2 : (0 : ℚ) < max (max (extractTreeMetrics c1).avg_depth (extractTreeMetrics c2).avg_depth) 1 :=
      lt_of_lt_of_le one_pos (le_max_right _ _)
    have d3 : (0 : ℚ) < max (max ((extractTreeMetrics c1).depth_variance : ℚ) ((extractTreeMetrics c2).depth_variance : ℚ)) 1 :=
      lt_of_lt_of_le one_pos (le_max_right _ _)
    simp only
    exact mean3_unit _ _ _
      (unitInterval_div _ _ (abs_nonneg _) (natCastMaxOnePos _))
      (unitInterval_div _ _ (abs_nonneg _) d2)
      (unitInterval_div _ _ (abs_nonneg _) d3)
  have hbal : 0 ≤ calculate_balance_similarity (extractTreeMetrics c1) (extractTreeMetrics c2) ∧
      calculate_balance_similarity (extractTreeMetrics c1) (extractTreeMetrics c2) ≤ 1 := by
    unfold calculate_balance_similarity
    refine ⟨le_max_left 0 _, max_le (by norm_num) ?_⟩
    have := abs_nonneg ((extractTreeMetrics c1).avg_balance - (extractTreeMetrics c2).avg_balance)
    linarith
  have htopo : 0 ≤ calculate_topology_similarity (extractTreeMetrics c1) (extractTreeMetrics c2) ∧
      calculate_topology_similarity (extractTreeMetrics c1) (extractTreeMetrics c2) ≤ 1 := by
    unfold calculate_topology_similarity
    simp only
    split_ifs with h1 h2
    · norm_num
    · norm_num
    · apply unitInterval_div
      · apply List.sum_nonneg
        intro x hx
        obtain ⟨ab, _, hab⟩ := List.mem_map.mp hx
        rw [← hab]
        exact abs_nonneg _
      · apply mul_pos
        · exact_mod_cast Nat.pos_of_ne_zero h2
        · exact natCastMaxOnePos _
  have hbr : 0 ≤ calculate_branch_similarity (extractTreeMetrics c1) (extractTreeMetrics c2) ∧
      calculate_branch_similarity (extractTreeMetrics c1) (extractTreeMetrics c2) ≤ 1 := by
    unfold calculate_branch_similarity
    split_ifs with h1
    · norm_num
    · apply unitInterval_div _ _ (abs_nonneg _)
      exact lt_of_lt_of_le (by norm_num) (le_max_right _ _)
  have hov : explain_overall_score c1 c2 =
      calculate_size_similarity (extractTreeMetrics c1) (extractTreeMetrics c2) * (2/10)
      + calculate_depth_similarity (extractTreeMetrics c1) (extractTreeMetrics c2) * (2/10)
      + calculate_balance_similarity (extractTreeMetrics c1) (extractTreeMetrics c2) * (2/10)
      + calculate_topology_similarity (extractTreeMetrics c1) (extractTreeMetrics c2) * (3/10)
      + calculate_branch_similarity (extractTreeMetrics c1) (extractTreeMetrics c2) * (1/10) := rfl
  refine ⟨hsize, hdepth, hbal, htopo, hbr, hov, ?_, ?_⟩
  · rw [hov]
    exact (weightedSum_unit _ _ _ _ _ hsize hdepth hbal htopo hbr).1
  · rw [hov]
    exact (weightedSum_unit _ _ _ _ _ hsize hdepth hbal htopo hbr).2

/-- A left fold of `min` over naturals is bounded by its initial value. -/
theorem foldl_min_le_init (xs : List ℕ) : ∀ x : ℕ, xs.foldl min x ≤ x := by
  induction xs with
  | nil => intro x; exact le_refl x
  | cons y ys ih =>
    intro x
    exact le_trans (ih (min x y)) (min_le_left x y)

/-- A left fold of `max` over naturals dominates its initial value. -/
theorem init_le_foldl_max (xs : List ℕ) : ∀ x : ℕ, x ≤ xs.foldl max x := by
  induction xs with
  | nil => intro x; exact le_refl x
  | cons y ys ih =>
    intro x
    exact le_trans (le_max_left x y) (ih (max x y))

/-- The list minimum never exceeds the list maximum. -/
theorem listMinNat_le_listMaxNat (l : List ℕ) : listMinNat l ≤ listMaxNat l := by
  cases l with
  | nil => exact le_refl 0
  | cons x xs =>
    exact le_trans (foldl_min_le_init xs x) (init_le_foldl_max xs x)

/-- A left fold of `min` over rationals preserves a common lower bound. -/
theorem foldl_min_nonneg (xs : List ℚ) :
    ∀ x : ℚ, 0 ≤ x → (∀ y ∈ xs, 0 ≤ y) → 0 ≤ xs.foldl min x := by
  induction xs with
  | nil => intro x hx _; exact hx
  | cons y ys ih =>
    intro x hx hall
    exact ih (min x y) (le_min hx (hall y (List.mem_cons_self y ys)))
      (fun z hz => hall z (List.mem_cons_of_mem y hz))

/-- A left fold of `max` over rationals preserves a common lower bound. -/
theorem foldl_max_nonneg (xs : List ℚ) :
    ∀ x : ℚ, 0 ≤ x → 0 ≤ xs.foldl max x := by
  induction xs with
  | nil => intro x hx; exact hx
  | cons y ys ih =>
    intro x hx
    exact ih (max x y) (le_trans hx (le_max_left x y))

/-- The minimum of a list of non-negative rationals is non-negative. -/
theorem listMinQ_nonneg (l : List ℚ) (h : ∀ x ∈ l, 0 ≤ x) : 0 ≤ listMinQ l := by
  cases l with
  | nil => exact le_refl 0
  | cons x xs =>
    exact foldl_min_nonneg xs x (h x (List.mem_cons_self x xs))
      (fun y hy => h y (List.mem_cons_of_mem x hy))

/-- The maximum of a list of non-negative rationals is non-negative. -/
theorem listMaxQ_nonneg (l : List ℚ) (h : ∀ x ∈ l, 0 ≤ x) : 0 ≤ listMaxQ l := by
  cases l with
  | nil => exact le_refl 0
  | cons x xs => exact foldl_max_nonneg xs x (h x (List.mem_cons_self x xs))

/-- The mean of a list of non-negative rationals is non-negative. -/
theorem listMeanQ_nonneg (l : List ℚ) (h : ∀ x ∈ l, 0 ≤ x) : 0 ≤ listMeanQ l := by
  unfold listMeanQ
  split_ifs
  · exact le_refl 0
  · exact div_nonneg (List.sum_nonneg h) (Nat.cast_nonneg _)

/-- An element fetched with default `0` from a list of non-negative
rationals is non-negative. -/
theorem getD_nonneg (l : List ℚ) (h : ∀ x ∈ l, 0 ≤ x) (i : ℕ) :
    0 ≤ l.getD i 0 := by
  rcases lt_or_ge i l.length with hlt | hge
  · rw [List.getD_eq_getElem l 0 hlt]
    exact h _ (List.getElem_mem hlt)
  · rw [List.getD_eq_default]
    exact hge

/-- The `np.median` of a list of non-negative rationals is non-negative. -/
theorem medianQ_nonneg (l : List ℚ) (h : ∀ x ∈ l, 0 ≤ x) : 0 ≤ medianQ l := by
  have hs : ∀ x ∈ sortQ l, 0 ≤ x := by
    intro x hx
    exact h x ((List.mergeSort_perm l _).mem_iff.mp hx)
  unfold medianQ
  simp only
  split_ifs
  · exact le_refl 0
  · exact getD_nonneg _ hs _
  · have h1 := getD_nonneg _ hs ((sortQ l).length / 2 - 1)
    have h2 := getD_nonneg _ hs ((sortQ l).length / 2)
    exact div_nonneg (add_nonneg h1 h2) (by norm_num)

/-- The mean of a list of naturals is non-negative. -/
theorem listMeanNat_nonneg (l : List ℕ) : 0 ≤ listMeanNat l := by
  unfold listMeanNat
  split_ifs
  · exact le_refl 0
  · positivity

/-- Feature group 1 is slot-wise non-negative. -/
theorem basicStats_nonneg (c : Clade) (i : ℕ) : 0 ≤ basicStats c i := by
  unfold basicStats
  split_ifs
  · positivity
  · positivity
  · positivity
  · apply div_nonneg (Nat.cast_nonneg _)
    have h1 : (1 : ℤ) ≤ max ((c.numLeaves : ℤ) - 1) 1 := le_max_right _ _
    have : (0 : ℚ) < ((max ((c.numLeaves : ℤ) - 1) 1 : ℤ) : ℚ) := by
      exact_mod_cast lt_of_lt_of_le Int.zero_lt_one h1
    exact this.le
  · positivity
  · positivity
  · have := listMeanNat_nonneg c.leafDepths
    positivity
  · apply div_nonneg _ (by norm_num)
    have := listMinNat_le_listMaxNat c.leafDepths
    have hc : ((listMinNat c.leafDepths : ℚ)) ≤ (listMaxNat c.leafDepths : ℚ) := by
      exact_mod_cast this
    linarith
  · exact le_refl 0

/-- Feature group 2 is slot-wise non-negative. -/
theorem depthHist_nonneg (c : Clade) (k : ℕ) : 0 ≤ depthHist c k := by
  unfold depthHist
  simp only
  split_ifs
  · positivity
  · positivity

/-- Feature group 3 is slot-wise non-negative. -/
theorem sizeHist_nonneg (c : Clade) (k : ℕ) : 0 ≤ sizeHist c k := by
  unfold sizeHist
  simp only
  split_ifs
  · positivity
  · positivity

/-- The split-pattern accumulator over a sibling list is non-negative when
it is non-negative for every sibling. -/
theorem splitAccList_nonneg_of (nl : ℕ) (cs : List Clade)
    (hcs : ∀ c ∈ cs, ∀ d j, 0 ≤ splitAcc nl c d j) :
    ∀ d j, 0 ≤ splitAccList nl cs d j := by
  induction cs with
  | nil => intro d j; simp [splitAccList]
  | cons c0 rest ih =>
    intro d j
    have h1 := hcs c0 (List.mem_cons_self c0 rest) d j
    have h2 := ih (fun c hc => hcs c (List.mem_cons_of_mem c0 hc)) d j
    simp only [splitAccList]
    exact add_nonneg h1 h2

/-- The split-pattern accumulator is non-negative. -/
theorem splitAcc_nonneg (nl : ℕ) (c : Clade) : ∀ d j, 0 ≤ splitAcc nl c d j := by
  induction c using Clade.ind with
  | h n b cs ih =>
    intro d j
    cases cs with
    | nil => simp [splitAcc]
    | cons c0 rest =>
      simp only [splitAcc]
      split_ifs with h16 h64
      · exact le_refl 0
      · simp only
        apply add_nonneg
        · split_ifs <;> positivity
        · exact splitAccList_nonneg_of nl (c0 :: rest) ih (d + 1) j
      · simp only
        apply add_nonneg (le_refl 0)
        exact splitAccList_nonneg_of nl (c0 :: rest) ih (d + 1) j

/-- The topology-hash accumulator over a sibling list is non-negative when
it is non-negative for every sibling. -/
theorem topoAccList_nonneg_of (h : String → ℤ) (cs : List Clade)
    (hcs : ∀ c ∈ cs, ∀ path j, 0 ≤ (topoAcc h c path).1 j) :
    ∀ path i j, 0 ≤ (topoAccList h cs path i).1 j := by
  induction cs with
  | nil => intro path i j; simp [topoAccList]
  | cons c0 rest ih =>
    intro path i j
    have h1 := hcs c0 (List.mem_cons_self c0 rest) (path ++ toString i) j
    have h2 := ih (fun c hc => hcs c (List.mem_cons_of_mem c0 hc)) path (i + 1) j
    simp only [topoAccList]
    exact add_nonneg h1 h2

/-- The topology-hash accumulator is non-negative. -/
theorem topoAcc_nonneg (h : String → ℤ) (c : Clade) :
    ∀ path j, 0 ≤ (topoAcc h c path).1 j := by
  induction c using Clade.ind with
  | h n b cs ih =>
    intro path j
    cases cs with
    | nil =>
      simp only [topoAcc]
      split_ifs <;> norm_num
    | cons c0 rest =>
      simp only [topoAcc]
      apply add_nonneg
      · exact topoAccList_nonneg_of h (c0 :: rest) ih path 0 j
      · split_ifs <;> norm_num

/-- Feature group 4 is slot-wise non-negative. -/
theorem splitPatterns_nonneg (c : Clade) (j : ℕ) : 0 ≤ splitPatterns c j := by
  unfold splitPatterns
  simp only
  split_ifs with hmx
  · exact div_nonneg (splitAcc_nonneg c.numLeaves c 0 j) hmx.le
  · exact splitAcc_nonneg c.numLeaves c 0 j

/-- Feature group 5 is slot-wise non-negative. -/
theorem topoHashVec_nonneg (h : String → ℤ) (c : Clade) (j : ℕ) :
    0 ≤ topoHashVec h c j := by
  unfold topoHashVec
  simp only
  split_ifs with hmx
  · exact div_nonneg (topoAcc_nonneg h c "" j) hmx.le
  · exact topoAcc_nonneg h c "" j

/-- Feature group 6 (rational part) is slot-wise non-negative when the
truthy branch lengths are non-negative. -/
theorem branchFeat_nonneg (c : Clade)
    (hb : ∀ x ∈ c.branchLengths, 0 ≤ x) (k : ℕ) : 0 ≤ branchFeat c k := by
  unfold branchFeat
  simp only
  split_ifs
  · exact le_refl 0
  · exact mul_nonneg (listMeanQ_nonneg _ hb) (by norm_num)
  · exact mul_nonneg (listMinQ_nonneg _ hb) (by norm_num)
  · exact mul_nonneg (listMaxQ_nonneg _ hb) (by norm_num)
  · exact mul_nonneg (medianQ_nonneg _ hb) (by norm_num)
  · exact mul_nonneg (mul_nonneg (List.sum_nonneg hb) (by norm_num)) (by norm_num)
  · positivity
  · exact le_refl 0
  · exact le_refl 0

/-- Slot 225 is non-negative. -/
theorem branchStd_nonneg (c : Clade) : 0 ≤ branchStd c := by
  unfold branchStd
  simp only
  split_ifs
  · exact le_refl 0
  · exact mul_nonneg (Real.sqrt_nonneg _) (by norm_num)
  · exact mul_nonneg (le_refl 0) (by norm_num)

/-- The rational part of the embedding is slot-wise non-negative when the
truthy branch lengths are non-negative. -/
theorem embedQ_nonneg (h : String → ℤ) (c : Clade)
    (hb : ∀ x ∈ c.branchLengths, 0 ≤ x) (i : ℕ) : 0 ≤ embedQ h c i := by
  unfold embedQ
  split_ifs
  · exact basicStats_nonneg c i
  · exact depthHist_nonneg c (i - 32)
  · exact sizeHist_nonneg c (i - 64)
  · exact splitPatterns_nonneg c (i - 96)
  · exact topoHashVec_nonneg h c (i - 160)
  · exact branchFeat_nonneg c hb (i - 224)
  · exact le_refl 0

/-- The unnormalised embedding is slot-wise non-negative when the truthy
branch lengths are non-negative. -/
theorem embedPre_nonneg (h : String → ℤ) (c : Clade)
    (hb : ∀ x ∈ c.branchLengths, 0 ≤ x) (i : ℕ) : 0 ≤ embedPre h c i := by
  unfold embedPre
  split_ifs
  · exact branchStd_nonneg c
  · exact_mod_cast embedQ_nonneg h c hb i

/-- Cosine similarity of slot-wise non-negative vectors is non-negative. -/
theorem tree_similarity_nonneg (v w : ℕ → ℝ) (hv : ∀ i, 0 ≤ v i)
    (hw : ∀ i, 0 ≤ w i) : 0 ≤ tree_similarity v w := by
  unfold tree_similarity
  split_ifs
  · exact le_refl 0
  · apply div_nonneg
    · exact Finset.sum_nonneg (fun i _ => mul_nonneg (hv i) (hw i))
    · exact mul_nonneg (Real.sqrt_nonneg _) (Real.sqrt_nonneg _)

/-- Truthy branch lengths are non-negative as soon as every set branch
length of the tree is non-negative in the `getD`-form hypothesis. -/
theorem branchLengths_nonneg_of (c : Clade)
    (hb : ∀ cl ∈ c.findClades, 0 ≤ cl.bl.getD 0) :
    ∀ x ∈ c.branchLengths, 0 ≤ x := by
  intro x hx
  unfold Clade.branchLengths at hx
  obtain ⟨cl, hcl, hval⟩ := List.mem_filterMap.mp hx
  have := hb cl hcl
  cases hblv : cl.bl with
  | none => rw [hblv] at hval; simp at hval
  | some b =>
    rw [hblv] at hval this
    simp only [Option.getD_some] at this
    dsimp only at hval
    split_ifs at hval with hb0
    cases hval
    exact this

/-- Claim C10.  For every pair of parse products whose set branch lengths
are all non-negative, every component of the encoder output is
non-negative in both normalisation modes, and the cosine similarity of the
two encoded trees is non-negative. -/
theorem encode_nonneg (h : String → ℤ) (c1 c2 : Clade)
    (hb1 : ∀ cl ∈ c1.findClades, 0 ≤ cl.bl.getD 0)
    (hb2 : ∀ cl ∈ c2.findClades, 0 ≤ cl.bl.getD 0) :
    (∀ nrm : Bool, ∀ i, 0 ≤ phylo2vec_encode h c1 nrm i) ∧
      0 ≤ tree_similarity (phylo2vec_encode h c1 true)
        (phylo2vec_encode h c2 true) := by
  have key : ∀ c : Clade, (∀ cl ∈ c.findClades, 0 ≤ cl.bl.getD 0) →
      ∀ nrm : Bool, ∀ i, 0 ≤ phylo2vec_encode h c nrm i := by
    intro c hb nrm i
    have hpre := embedPre_nonneg h c (branchLengths_nonneg_of c hb)
    unfold phylo2vec_encode
    simp only
    split_ifs with hlt hnrm hpos
    · exact le_refl 0
    · exact div_nonneg (hpre i) hpos.le
    · exact hpre i
    · exact hpre i
  exact ⟨key c1 hb1, tree_similarity_nonneg _ _ (key c1 hb1 true) (key c2 hb2 true)⟩

/-- Claim C10, witness: the non-negativity theorem applied to the concrete
trees `"(A,B);"` and `"((A,B),C);"`. -/
theorem encode_nonneg_witness :
    (∀ cl ∈ cladeAB.findClades, 0 ≤ cl.bl.getD 0) ∧
      (∀ cl ∈ cladeABC.findClades, 0 ≤ cl.bl.getD 0) ∧
      0 ≤ tree_similarity (phylo2vec_encode fnv64 cladeAB true)
        (phylo2vec_encode fnv64 cladeABC true) :=
  ⟨by with_unfolding_all decide, by with_unfolding_all decide,
    (encode_nonneg fnv64 cladeAB cladeABC (by with_unfolding_all decide)
      (by with_unfolding_all decide)).2⟩

/-- Persisted node record (`models.TreeNode`); the `Any`-typed `metadata`
dict and the always-`None` `position_embedding` are not modelled. -/
structure TreeNode where
  id : String
  tree_id : String
  name : Option String
  sequence_id : Option String
  parent_id : Option String
  left_child_id : Option String
  right_child_id : Option String
  depth : ℕ
  branch_length : ℚ
  is_leaf : Bool
deriving DecidableEq, Repr

/-- Python `clade.name if clade.name else None` (the empty string is
falsy). -/
def truthyName : Option String → Option String
  | some s => if s = "" then none else some s
  | none => none

/-- Recursive worker `process_clade` of `extract_nodes`: `gen` supplies the
`uuid.uuid4()` draws in call order (pre-order), `tid` is the tree id,
the remaining arguments are the clade, its parent's id, its depth and the
index of the next draw.  Returns the node id of the clade, the node list
in append (post-order) order, and the next draw index.  Only the first two
children are processed, exactly as in the source. -/
def processClade (gen : ℕ → String) (tid : String) :
    Clade → Option String → ℕ → ℕ → (String × List TreeNode × ℕ)
  | .mk nm b cs, parent, depth, ctr =>
    let nid := gen ctr
    match cs with
    | [] =>
      (nid, [{ id := nid, tree_id := tid, name := truthyName nm,
               sequence_id := none, parent_id := parent,
               left_child_id := none, right_child_id := none,
               depth := depth, branch_length := b.getD 0,
               is_leaf := true }], ctr + 1)
    | [c1] =>
      let r1 := processClade gen tid c1 (some nid) (depth + 1) (ctr + 1)
      (nid,
        r1.2.1 ++
          [{ id := nid, tree_id := tid, name := truthyName nm,
             sequence_id := none, parent_id := parent,
             left_child_id := some r1.1, right_child_id := none,
             depth := depth, branch_length := b.getD 0,
             is_leaf := false }],
        r1.2.2)
    | c1 :: c2 :: _ =>
      let r1 := processClade gen tid c1 (some nid) (depth + 1) (ctr + 1)
      let r2 := processClade gen tid c2 (some nid) (depth + 1) r1.2.2
      (nid,
        r1.2.1 ++ r2.2.1 ++
          [{ id := nid, tree_id := tid, name := truthyName nm,
             sequence_id := none, parent_id := parent,
             left_child_id := some r1.1, right_child_id := some r2.1,
             depth := depth, branch_length := b.getD 0,
             is_leaf := false }],
        r2.2.2)

/-- The node extraction `extract_nodes(tree, tree_id)` (node list only;
the clade-to-id map of the source is not modelled). -/
def extract_nodes (gen : ℕ → String) (t : Clade) (tid : String) : List TreeNode :=
  (processClade gen tid t none 0 0).2.1

/-- An id supply modelling the `uuid.uuid4()` draws of one run. -/
def genA : ℕ → String := fun n => "a" ++ toString n

/-- An id supply modelling the `uuid.uuid4()` draws of a second run. -/
def genB : ℕ → String := fun n => "b" ++ toString n

/-- Claim C3, counterexample.  Node ids are fresh `uuid.uuid4()` draws,
not deterministic hashes of `tree_id || ":node:" || preorder_index`:
extracting the nodes of `"(A,B);"` twice for the same `tree_id` under two
different draw sequences yields different node ids. -/
theorem extract_nodes_ids_not_deterministic :
    (extract_nodes genA cladeAB "t").map (fun n => n.id) ≠
      (extract_nodes genB cladeAB "t").map (fun n => n.id) := by
  with_unfolding_all decide

/-- The node ids produced by `process_clade` do not depend on the tree id,
and neither does the draw counter. -/
theorem processClade_tid_irrel (gen : ℕ → String) (tid tid' : String) :
    ∀ (c : Clade) (par : Option String) (d ctr : ℕ),
      (processClade gen tid c par d ctr).2.1.map (fun n => n.id) =
        (processClade gen tid' c par d ctr).2.1.map (fun n => n.id) ∧
      (processClade gen tid c par d ctr).2.2 =
        (processClade gen tid' c par d ctr).2.2 ∧
      (processClade gen tid c par d ctr).1 = (processClade gen tid' c par d ctr).1 := by
  intro c
  induction c using Clade.ind with
  | h n b cs ih =>
    intro par d ctr
    cases cs with
    | nil => simp [processClade]
    | cons c1 rest =>
      cases rest with
      | nil =>
        obtain ⟨i1, i2, i3⟩ := ih c1 (List.mem_cons_self c1 []) (some (gen ctr)) (d + 1) (ctr + 1)
        refine ⟨?_, ?_, ?_⟩
        · simp only [processClade, List.map_append, List.map_cons, List.map_nil]
          rw [i1]
        · simp only [processClade]
          exact i2
        · rfl
      | cons c2 rest2 =>
        obtain ⟨i1, i2, i3⟩ := ih c1 (by simp) (some (gen ctr)) (d + 1) (ctr + 1)
        obtain ⟨j1, j2, j3⟩ := ih c2 (by simp)
          (some (gen ctr)) (d + 1) (processClade gen tid' c1 (some (gen ctr)) (d + 1) (ctr + 1)).2.2
        refine ⟨?_, ?_, ?_⟩
        · simp only [processClade, List.map_append, List.map_cons, List.map_nil]
          rw [i1, i2, j1]
        · simp only [processClade]
          rw [i2]
          exact j2
        · rfl

/-- The draw counter advances by the number of produced nodes, and the
produced node ids are a permutation of the draws at indices
`ctr, …, ctr + len - 1`. -/
theorem processClade_ids_perm (gen : ℕ → String) (tid : String) :
    ∀ (c : Clade) (par : Option String) (d ctr : ℕ),
      (processClade gen tid c par d ctr).2.2 =
        ctr + (processClade gen tid c par d ctr).2.1.length ∧
      ((processClade gen tid c par d ctr).2.1.map (fun n => n.id)).Perm
        ((List.range' ctr (processClade gen tid c par d ctr).2.1.length).map gen) := by
  intro c
  induction c using Clade.ind with
  | h nm b cs ih =>
    intro par d ctr
    cases cs with
    | nil =>
      refine ⟨by simp [processClade], ?_⟩
      simp [processClade]
    | cons c1 rest =>
      cases rest with
      | nil =>
        obtain ⟨i2, ip⟩ := ih c1 (List.mem_cons_self c1 [])
          (some (gen ctr)) (d + 1) (ctr + 1)
        constructor
        · simp only [processClade, List.length_append, List.length_cons,
            List.length_nil]
          omega
        · simp only [processClade, List.map_append, List.map_cons,
            List.map_nil, List.length_append, List.length_cons, List.length_nil]
          have hr : (processClade gen tid c1 (some (gen ctr)) (d + 1) (ctr + 1)).2.1.length + (0 + 1) =
              (processClade gen tid c1 (some (gen ctr)) (d + 1) (ctr + 1)).2.1.length + 1 := by
            omega
          rw [hr, List.range'_succ, List.map_cons]
          exact (List.perm_append_singleton _ _).trans (List.Perm.cons _ ip)
      | cons c2 rest2 =>
        obtain ⟨i2, ip⟩ := ih c1 (by simp) (some (gen ctr)) (d + 1) (ctr + 1)
        obtain ⟨j2, jp⟩ := ih c2 (by simp) (some (gen ctr)) (d + 1)
          (processClade gen tid c1 (some (gen ctr)) (d + 1) (ctr + 1)).2.2
        constructor
        · simp only [processClade, List.length_append, List.length_cons,
            List.length_nil]
          omega
        · simp only [processClade, List.map_append, List.map_cons,
            List.map_nil, List.length_append, List.length_cons, List.length_nil]
          have hr : (processClade gen tid c1 (some (gen ctr)) (d + 1) (ctr + 1)).2.1.length +
              (processClade gen tid c2 (some (gen ctr)) (d + 1)
                (processClade gen tid c1 (some (gen ctr)) (d + 1) (ctr + 1)).2.2).2.1.length + (0 + 1) =
              ((processClade gen tid c2 (some (gen ctr)) (d + 1)
                (processClade gen tid c1 (some (gen ctr)) (d + 1) (ctr + 1)).2.2).2.1.length +
               (processClade gen tid c1 (some (gen ctr)) (d + 1) (ctr + 1)).2.1.length) + 1 := by
            omega
          rw [hr, List.range'_succ, ← List.range'_append_1, List.map_cons,
            List.map_append, ← i2]
          exact (List.perm_append_singleton _ _).trans
            (List.Perm.cons _ (ip.append jp))

/-- Claim C3, amended.  Node ids are the fresh `uuid.uuid4()` draws of the
extraction run: for a fixed draw sequence the ids do not depend on the
tree id, and the ids of the extracted nodes are exactly the draws at
pre-order positions `0, …, n-1` (as a permutation; the list itself is in
post-order).  Two extractions agree only when their draw sequences agree
(see the counterexample). -/
theorem extract_nodes_ids (gen : ℕ → String) (t : Clade) (tid tid' : String) :
    (extract_nodes gen t tid).map (fun n => n.id) =
      (extract_nodes gen t tid').map (fun n => n.id) ∧
    ((extract_nodes gen t tid).map (fun n => n.id)).Perm
      ((List.range (extract_nodes gen t tid).length).map gen) := by
  constructor
  · exact (processClade_tid_irrel gen tid tid' t none 0 0).1
  · rw [List.range_eq_range']
    exact (processClade_ids_perm gen tid t none 0 0).2

/-- Structural invariants of the node list produced by `process_clade`:
every node id is a draw from the processed range, the subtree root (draw
`ctr`, parent `par`, depth `d`) is in the list, and every node either is
that subtree root or points to a parent in the list whose depth is one
less, the parent id being a draw of index at least `ctr`. -/
theorem processClade_graph (gen : ℕ → String) (tid : String) :
    ∀ (c : Clade) (par : Option String) (d ctr : ℕ),
      (∀ n ∈ (processClade gen tid c par d ctr).2.1,
        ∃ k, ctr ≤ k ∧ k < (processClade gen tid c par d ctr).2.2 ∧ n.id = gen k) ∧
      (∃ rt ∈ (processClade gen tid c par d ctr).2.1,
        rt.id = gen ctr ∧ rt.parent_id = par ∧ rt.depth = d) ∧
      (∀ n ∈ (processClade gen tid c par d ctr).2.1,
        (n.parent_id = par ∧ n.id = gen ctr ∧ n.depth = d) ∨
        (∃ p ∈ (processClade gen tid c par d ctr).2.1,
          n.parent_id = some p.id ∧ n.depth = p.depth + 1 ∧
          ∃ k, ctr ≤ k ∧ n.parent_id = some (gen k))) := by
  intro c
  induction c using Clade.ind with
  | h nm b cs ih =>
    intro par d ctr
    cases cs with
    | nil =>
      refine ⟨?_, ?_, ?_⟩
      · intro n hn
        simp only [processClade, List.mem_singleton] at hn
        exact ⟨ctr, le_refl ctr, by simp [processClade], by rw [hn]⟩
      · exact ⟨_, List.mem_singleton.mpr rfl, rfl, rfl, rfl⟩
      · intro n hn
        simp only [processClade, List.mem_singleton] at hn
        exact Or.inl ⟨by rw [hn], by rw [hn], by rw [hn]⟩
    | cons c1 rest =>
      cases rest with
      | nil =>
        obtain ⟨iA, iB, iC⟩ := ih c1 (List.mem_cons_self c1 [])
          (some (gen ctr)) (d + 1) (ctr + 1)
        have i2 := (processClade_ids_perm gen tid c1 (some (gen ctr)) (d + 1) (ctr + 1)).1
        refine ⟨?_, ?_, ?_⟩
        · intro n hn
          simp only [processClade, List.mem_append, List.mem_singleton] at hn
          rcases hn with hn1 | hroot
          · obtain ⟨k, hk1, hk2, hk3⟩ := iA n hn1
            exact ⟨k, by omega, by simp only [processClade]; omega, hk3⟩
          · exact ⟨ctr, le_refl ctr, by simp only [processClade]; omega, by rw [hroot]⟩
        · exact ⟨_, List.mem_append_right _ (List.mem_singleton.mpr rfl),
            rfl, rfl, rfl⟩
        · intro n hn
          simp only [processClade, List.mem_append, List.mem_singleton] at hn
          rcases hn with hn1 | hroot
          · rcases iC n hn1 with ⟨hp, hid, hd1⟩ | ⟨p, hp, hpe, hde, k, hk, hpk⟩
            · refine Or.inr ⟨_,
                List.mem_append_right _ (List.mem_singleton.mpr rfl),
                ?_, ?_, ctr, le_refl ctr, hp⟩
              · rw [hp]
              · rw [hd1]
            · refine Or.inr ⟨p, ?_, hpe, hde, k, by omega, hpk⟩
              simp only [processClade, List.mem_append]
              exact Or.inl hp
          · exact Or.inl ⟨by rw [hroot], by rw [hroot], by rw [hroot]⟩
      | cons c2 rest2 =>
        obtain ⟨iA, iB, iC⟩ := ih c1 (by simp) (some (gen ctr)) (d + 1) (ctr + 1)
        obtain ⟨jA, jB, jC⟩ := ih c2 (by simp) (some (gen ctr)) (d + 1)
          (processClade gen tid c1 (some (gen ctr)) (d + 1) (ctr + 1)).2.2
        have i2 := (processClade_ids_perm gen tid c1 (some (gen ctr)) (d + 1) (ctr + 1)).1
        have j2 := (processClade_ids_perm gen tid c2 (some (gen ctr)) (d + 1)
          (processClade gen tid c1 (some (gen ctr)) (d + 1) (ctr + 1)).2.2).1
        refine ⟨?_, ?_, ?_⟩
        · intro n hn
          simp only [processClade, List.mem_append, List.mem_singleton] at hn
          rcases hn with (hn1 | hn2) | hroot
          · obtain ⟨k, hk1, hk2, hk3⟩ := iA n hn1
            exact ⟨k, by omega, by simp only [processClade]; omega, hk3⟩
          · obtain ⟨k, hk1, hk2, hk3⟩ := jA n hn2
            exact ⟨k, by omega, by simp only [processClade]; omega, hk3⟩
          · exact ⟨ctr, le_refl ctr, by simp only [processClade]; omega, by rw [hroot]⟩
        · exact ⟨_, List.mem_append_right _ (List.mem_singleton.mpr rfl),
            rfl, rfl, rfl⟩
        · intro n hn
          simp only [processClade, List.mem_append, List.mem_singleton] at hn
          rcases hn with (hn1 | hn2) | hroot
          · rcases iC n hn1 with ⟨hp, hid, hd1⟩ | ⟨p, hp, hpe, hde, k, hk, hpk⟩
            · refine Or.inr ⟨_,
                List.mem_append_right _ (List.mem_singleton.mpr rfl),
                ?_, ?_, ctr, le_refl ctr, hp⟩
              · rw [hp]
              · rw [hd1]
            · refine Or.inr ⟨p, ?_, hpe, hde, k, by omega, hpk⟩
              simp only [processClade, List.mem_append]
              exact Or.inl (Or.inl hp)
          · rcases jC n hn2 with ⟨hp, hid, hd1⟩ | ⟨p, hp, hpe, hde, k, hk, hpk⟩
            · refine Or.inr ⟨_,
                List.mem_append_right _ (List.mem_singleton.mpr rfl),
                ?_, ?_, ctr, le_refl ctr, hp⟩
              · rw [hp]
              · rw [hd1]
            · refine Or.inr ⟨p, ?_, hpe, hde, k, by omega, hpk⟩
              simp only [processClade, List.mem_append]
              exact Or.inl (Or.inr hp)
          · exact Or.inl ⟨by rw [hroot], by rw [hroot], by rw [hroot]⟩

/-- A duplicate-free list whose members all equal `a`, and which contains
`a`, is exactly `[a]`. -/
theorem nodup_all_eq {α : Type} (l : List α) (a : α) (hnd : l.Nodup)
    (ha : a ∈ l) (hall : ∀ b ∈ l, b = a) : l = [a] := by
  cases l with
  | nil => cases ha
  | cons x xs =>
    have hx : x = a := hall x (List.mem_cons_self x xs)
    cases xs with
    | nil => rw [hx]
    | cons y ys =>
      have hy : y = a := hall y (List.mem_cons_of_mem x (List.mem_cons_self y ys))
      exfalso
      have : x ∈ y :: ys := by
        rw [hx, ← hy]
        exact List.mem_cons_self y ys
      exact (List.nodup_cons.mp hnd).1 this

/-- An injective id supply used as a stand-in for collision-free
`uuid.uuid4()` draws. -/
def genRep : ℕ → String := fun n => String.mk (List.replicate n 'a')

/-- Claim C9.  For every id supply without collisions, every tree and
every tree id: exactly one extracted node has `parent_id = None` and that
node has depth `0`, and every node pointing at a parent id that resolves
in the extracted list sits one level below that parent. -/
theorem extract_nodes_invariants (gen : ℕ → String)
    (hinj : Function.Injective gen) (t : Clade) (tid : String) :
    ((extract_nodes gen t tid).filter (fun n => n.parent_id = none)).length = 1 ∧
    (∀ n ∈ extract_nodes gen t tid, n.parent_id = none → n.depth = 0) ∧
    (∀ n ∈ extract_nodes gen t tid, ∀ pid, n.parent_id = some pid →
      ∀ p ∈ extract_nodes gen t tid, p.id = pid → n.depth = p.depth + 1) := by
  obtain ⟨mA, mB, mC⟩ := processClade_graph gen tid t none 0 0
  have hperm := (processClade_ids_perm gen tid t none 0 0).2
  have hmapnd : ((extract_nodes gen t tid).map (fun n => n.id)).Nodup :=
    hperm.nodup_iff.mpr (List.Nodup.map hinj (List.nodup_range' _ _))
  have hnd : (extract_nodes gen t tid).Nodup := hmapnd.of_map
  have hione : ∀ x ∈ extract_nodes gen t tid, ∀ y ∈ extract_nodes gen t tid,
      x.id = y.id → x = y := by
    intro x hx y hy hxy
    exact List.inj_on_of_nodup_map hmapnd hx hy hxy
  have hdz : ∀ n ∈ extract_nodes gen t tid, n.parent_id = none → n.depth = 0 := by
    intro n hn hp
    rcases mC n hn with ⟨_, _, hd⟩ | ⟨p, _, hpe, _, _, _, _⟩
    · exact hd
    · rw [hp] at hpe
      cases hpe
  have hdl : ∀ n ∈ extract_nodes gen t tid, ∀ pid, n.parent_id = some pid →
      ∀ p ∈ extract_nodes gen t tid, p.id = pid → n.depth = p.depth + 1 := by
    intro n hn pid hnp p hp hpid
    rcases mC n hn with ⟨hpar, _, _⟩ | ⟨p', hp', hpe, hde, _, _, _⟩
    · rw [hnp] at hpar
      cases hpar
    · have hpp : p'.id = pid := Option.some.inj (by rw [← hpe, hnp])
      have hppc : p' = p := hione p' hp' p hp (by rw [hpp, hpid])
      rw [hde, hppc]
  obtain ⟨rt, hrt, hrtid, hrtp, hrtd⟩ := mB
  have hfilter : (extract_nodes gen t tid).filter
      (fun n => n.parent_id = none) = [rt] := by
    apply nodup_all_eq _ rt (hnd.filter _)
    · rw [List.mem_filter]
      exact ⟨hrt, by simp [hrtp]⟩
    · intro m hm
      rw [List.mem_filter] at hm
      obtain ⟨hm1, hm2⟩ := hm
      have hmp : m.parent_id = none := by simpa using hm2
      rcases mC m hm1 with ⟨_, hid, _⟩ | ⟨p, _, hpe, _, _⟩
      · exact hione m hm1 rt hrt (by rw [hid, hrtid])
      · rw [hmp] at hpe
        cases hpe
  exact ⟨by rw [hfilter]; rfl, hdz, hdl⟩

/-- Claim C9, witness: the invariants applied to the tree `"((A,B),C);"`
with an explicit collision-free id supply. -/
theorem extract_nodes_invariants_witness :
    Function.Injective genRep ∧
      ((extract_nodes genRep cladeABC "t").filter
        (fun n => n.parent_id = none)).length = 1 :=
  have hinj : Function.Injective genRep := fun a b h => by
    have hd : List.replicate a 'a' = List.replicate b 'a' := congrArg String.data h
    have := congrArg List.length hd
    simpa using this
  ⟨hinj, (extract_nodes_invariants genRep hinj cladeABC "t").1⟩

/-- The label sanitisation of `subtree_to_newick`: spaces become
underscores, and the characters `(`, `)`, `,`, `;` are removed (the
chained single-character `str.replace` calls of the source are modelled as
a per-character map followed by filters).  The colon is NOT removed. -/
def sanitizeName (s : String) : String :=
  String.mk (((((s.data.map (fun c => if c = ' ' then '_' else c)).filter
    (fun c => c ≠ '(')).filter (fun c => c ≠ ')')).filter
    (fun c => c ≠ ',')).filter (fun c => c ≠ ';'))

/-- Base-10 digits of a natural number (fuel-bounded; `n + 1` steps always
suffice). -/
def natDigitsAux : ℕ → ℕ → List Char
  | 0, _ => []
  | fuel + 1, n =>
    if n < 10 then [Nat.digitChar n]
    else natDigitsAux fuel (n / 10) ++ [Nat.digitChar (n % 10)]

/-- Base-10 digit string of a natural number. -/
def natDigits (n : ℕ) : List Char := natDigitsAux (n + 1) n

/-- Digit-level model of the fixed-point format `f"{bl:.4f}"`: round to
four decimals (half up; the exact binary-float rounding is not modelled —
only the digit alphabet of the output matters here) and print
`int.frac` with the fraction zero-padded to four digits. -/
def decimal4 (q : ℚ) : String :=
  let n : ℤ := ⌊q * 10000 + 1/2⌋
  let m : ℕ := n.natAbs
  let fp := natDigits (m % 10000)
  (if n < 0 then "-" else "") ++ String.mk (natDigits (m / 10000)) ++ "." ++
    String.mk (List.replicate (4 - fp.length) '0' ++ fp)

/-- Python truthiness of an optional child id (`if node.left_child_id:`):
`None` and the empty string are falsy. -/
def optTruthy : Option String → List String
  | some s => if s = "" then [] else [s]
  | none => []

/-- The per-request map `{n.id: n for n in all_nodes}`: on duplicate ids
the last occurrence wins, as in a Python dict comprehension. -/
def lookupNode (ns : List TreeNode) (i : String) : Option TreeNode :=
  ns.reverse.find? (fun n => n.id == i)

/-- Recursive worker `_build_newick` of `subtree_to_newick`, with fuel for
the id-graph recursion (the source recurs on an acyclic id graph; fuel
`ns.length` suffices on well-formed graphs). -/
def buildNewick (ns : List TreeNode) : ℕ → String → Bool → String
  | 0, _, _ => ""
  | fuel + 1, nid, inclBL =>
    match lookupNode ns nid with
    | none => ""
    | some node =>
      match optTruthy node.left_child_id ++ optTruthy node.right_child_id with
      | [] =>
        let nm := sanitizeName (node.name.getD "")
        if inclBL ∧ 0 < node.branch_length then
          nm ++ ":" ++ decimal4 node.branch_length
        else nm
      | c0 :: crest =>
        let sub := "(" ++ joinComma ((c0 :: crest).map
          (fun cid => buildNewick ns fuel cid inclBL)) ++ ")"
        let sub2 :=
          match node.name with
          | some s => if s = "" then sub else sub ++ sanitizeName s
          | none => sub
        if inclBL ∧ 0 < node.branch_length then
          sub2 ++ ":" ++ decimal4 node.branch_length
        else sub2

/-- The subtree-to-Newick conversion `subtree_to_newick(node_id, tree_id,
include_branch_lengths)` over the tree's node list: empty string when the
node id is absent, else the built string with `";"` appended once. -/
def subtree_to_newick (ns : List TreeNode) (nid : String) (inclBL : Bool) :
    String :=
  match lookupNode ns nid with
  | none => ""
  | some _ => buildNewick ns ns.length nid inclBL ++ ";"

/-- A one-node stored tree whose leaf label contains a colon. -/
def nodeColon : List TreeNode :=
  [{ id := "n1", tree_id := "t", name := some "x:y", sequence_id := none,
     parent_id := none, left_child_id := none, right_child_id := none,
     depth := 0, branch_length := 0, is_leaf := true }]

/-- Claim C7, counterexample.  The sanitisation does not remove the colon:
rendering the one-leaf subtree whose label is `"x:y"` yields `"x:y;"`,
with the Newick delimiter `:` surviving inside the label (the claimed
sanitisation would have produced `"xy;"`). -/
theorem subtree_newick_keeps_colon :
    subtree_to_newick nodeColon "n1" false = "x:y;" ∧
      ':' ∈ (subtree_to_newick nodeColon "n1" false).data := by
  constructor
  · with_unfolding_all decide
  · with_unfolding_all decide

/-- Characters of the sanitised label: none of the removed delimiters nor
a space survives (the colon is the notable absentee from this list). -/
theorem sanitizeName_chars (s : String) :
    ∀ c ∈ (sanitizeName s).data,
      c ≠ '(' ∧ c ≠ ')' ∧ c ≠ ',' ∧ c ≠ ';' ∧ c ≠ ' ' := by
  intro c hc
  simp only [sanitizeName, List.mem_filter, List.mem_map,
    decide_eq_true_eq] at hc
  obtain ⟨⟨⟨⟨⟨x, _, hx⟩, h1⟩, h2⟩, h3⟩, h4⟩ := hc
  refine ⟨h1, h2, h3, h4, ?_⟩
  by_cases hxs : x = ' '
  · rw [hxs] at hx
    simp at hx
    rw [← hx]
    decide
  · rw [if_neg hxs] at hx
    rw [← hx]
    exact hxs

/-- No semicolon in a concatenation whose parts have none. -/
theorem noSemi_append (s t : String) (hs : ';' ∉ s.data) (ht : ';' ∉ t.data) :
    ';' ∉ (s ++ t).data := by
  rw [String.data_append]
  intro hmem
  rcases List.mem_append.mp hmem with h | h
  · exact hs h
  · exact ht h

/-- Digits never contain a semicolon. -/
theorem natDigitsAux_no_semi (fuel : ℕ) :
    ∀ n, ';' ∉ natDigitsAux fuel n := by
  induction fuel with
  | zero => intro n h; cases h
  | succ fuel ih =>
    intro n h
    unfold natDigitsAux at h
    split_ifs at h with h10
    · interval_cases n <;> revert h <;> decide
    · rcases List.mem_append.mp h with h1 | h1
      · exact ih _ h1
      · have hm : n % 10 < 10 := Nat.mod_lt n (by norm_num)
        revert h1
        generalize hg : n % 10 = m
        rw [hg] at hm
        interval_cases m <;> decide

/-- The fixed-point decimal rendering never contains a semicolon. -/
theorem decimal4_no_semi (q : ℚ) : ';' ∉ (decimal4 q).data := by
  unfold decimal4
  simp only
  apply noSemi_append
  apply noSemi_append
  apply noSemi_append
  · split_ifs <;> decide
  · intro h
    exact natDigitsAux_no_semi _ _ h
  · decide
  · intro h
    rcases List.mem_append.mp h with h1 | h1
    · have := List.eq_of_mem_replicate h1
      cases this
    · exact natDigitsAux_no_semi _ _ h1

/-- A comma-join of semicolon-free strings is semicolon-free. -/
theorem joinComma_no_semi (l : List String) (h : ∀ s ∈ l, ';' ∉ s.data) :
    ';' ∉ (joinComma l).data := by
  induction l with
  | nil => intro hc; cases hc
  | cons s rest ih =>
    cases rest with
    | nil =>
      exact h s (List.mem_cons_self s [])
    | cons t rest2 =>
      show ';' ∉ (s ++ "," ++ joinComma (t :: rest2)).data
      apply noSemi_append
      · apply noSemi_append
        · exact h s (List.mem_cons_self _ _)
        · decide
      · exact ih (fun u hu => h u (List.mem_cons_of_mem s hu))

/-- The built Newick body never contains a semicolon. -/
theorem buildNewick_no_semi (ns : List TreeNode) :
    ∀ (fuel : ℕ) (nid : String) (inclBL : Bool),
      ';' ∉ (buildNewick ns fuel nid inclBL).data := by
  intro fuel
  induction fuel with
  | zero => intro nid inclBL h; cases h
  | succ fuel ih =>
    intro nid inclBL
    unfold buildNewick
    split
    · intro h; cases h
    · split
      · simp only
        split_ifs
        · apply noSemi_append
          apply noSemi_append
          · intro hc
            exact (sanitizeName_chars _ _ hc).2.2.2.1 rfl
          · decide
          · exact decimal4_no_semi _
        · intro hc
          exact (sanitizeName_chars _ _ hc).2.2.2.1 rfl
      · rename_i c0 crest hch
        simp only
        have hsub : ';' ∉ ("(" ++ joinComma (List.map
            (fun cid => buildNewick ns fuel cid inclBL) (c0 :: crest)) ++ ")").data := by
          apply noSemi_append
          apply noSemi_append
          · decide
          · apply joinComma_no_semi
            intro u hu
            obtain ⟨cid, _, hcid⟩ := List.mem_map.mp hu
            rw [← hcid]
            exact ih cid inclBL
          · decide
        split_ifs
        · apply noSemi_append
          apply noSemi_append
          · split
            · split_ifs
              · exact hsub
              · apply noSemi_append _ _ hsub
                intro hc
                exact (sanitizeName_chars _ _ hc).2.2.2.1 rfl
            · exact hsub
          · decide
          · exact decimal4_no_semi _
        · split
          · split_ifs
            · exact hsub
            · apply noSemi_append _ _ hsub
              intro hc
              exact (sanitizeName_chars _ _ hc).2.2.2.1 rfl
          · exact hsub

/-- Claim C7, amended.  When the requested node exists, the output of
`subtree_to_newick` is a body followed by exactly one terminating `;`
(the body is semicolon-free), and label sanitisation removes `(`, `)`,
`,`, `;` and maps spaces to `_` — but does not remove `:`. -/
theorem subtree_newick_sanitizes (ns : List TreeNode) (nid : String)
    (inclBL : Bool) (hfound : (lookupNode ns nid).isSome) :
    (∃ body, subtree_to_newick ns nid inclBL = body ++ ";" ∧
      ';' ∉ body.data) ∧
    (∀ s : String, ∀ c ∈ (sanitizeName s).data,
      c ≠ '(' ∧ c ≠ ')' ∧ c ≠ ',' ∧ c ≠ ';' ∧ c ≠ ' ') := by
  constructor
  · refine ⟨buildNewick ns ns.length nid inclBL, ?_, buildNewick_no_semi ns _ _ _⟩
    unfold subtree_to_newick
    obtain ⟨node, hnode⟩ := Option.isSome_iff_exists.mp hfound
    rw [hnode]
  · exact sanitizeName_chars

/-- Claim C7, witness: the sanitisation theorem applied to the one-node
stored tree. -/
theorem subtree_newick_sanitizes_witness :
    (lookupNode nodeColon "n1").isSome ∧
      (∃ body, subtree_to_newick nodeColon "n1" true = body ++ ";" ∧
        ';' ∉ body.data) :=
  ⟨by with_unfolding_all decide,
    (subtree_newick_sanitizes nodeColon "n1" true (by with_unfolding_all decide)).1⟩

/-- A stored tree row as used by the similarity search (`phylo_trees`
table: id, name, counts and the stored fingerprint). -/
structure StoredTree where
  id : String
  name : String
  num_leaves : ℕ
  num_nodes : ℕ
  embedding : ℕ → ℝ

/-- One output entry of `search_similar_trees`: the tree response together
with the similarity score. -/
structure SearchHit where
  tree : StoredTree
  score : ℝ

/-- The per-row score of `search_similar_trees`: the manually recomputed
cosine similarity `np.dot(q, t) / (‖q‖·‖t‖)` when both norms are positive,
else `0.0`.  No clamping is applied. -/
noncomputable def cosineScore (q t : ℕ → ℝ) : ℝ :=
  if 0 < norm256 q ∧ 0 < norm256 t then
    (∑ i ∈ Finset.range 256, q i * t i) / (norm256 q * norm256 t)
  else 0

/-- The similarity search `search_similar_trees(query_embedding, limit)`
over the candidate rows returned by the store (LanceDB's candidate
retrieval is modelled by the given row list): score each row by
`cosineScore` and sort by score descending (stable, as Python's
`list.sort`). -/
noncomputable def search_similar_trees (q : ℕ → ℝ) (rows : List StoredTree) :
    List SearchHit :=
  (rows.map (fun r => { tree := r, score := cosineScore q r.embedding })).mergeSort
    (fun a b => b.score ≤ a.score)

/-- The structural search `search_trees_by_structure(query_newick, limit)`:
encode the query with `normalize=True` (the `pad_embedding` call is the
identity on 256 slots) and delegate to the similarity search, passing the
scores through unchanged. -/
noncomputable def search_trees_by_structure (h : String → ℤ) (queryTree : Clade)
    (rows : List StoredTree) : List SearchHit :=
  search_similar_trees (phylo2vec_encode h queryTree true) rows

/-- A query vector pointing in the negative direction of slot 0. -/
noncomputable def qNeg : ℕ → ℝ := fun i => if i = 0 then -1 else 0

/-- A stored row whose fingerprint points in the positive direction of
slot 0. -/
noncomputable def rowPos : StoredTree :=
  { id := "T1", name := "t1", num_leaves := 2, num_nodes := 3,
    embedding := fun i => if i = 0 then 1 else 0 }

/-- The norm of a one-hot (up to sign) 256-slot vector is `1`. -/
theorem norm256_signed_one_hot (v : ℕ → ℝ) (a : ℝ)
    (hv : ∀ i, v i = if i = 0 then a else 0) (ha : a * a = 1) :
    norm256 v = 1 := by
  unfold norm256
  have hsum : ∑ i ∈ Finset.range 256, (v i) ^ 2 = 1 := by
    have h1 : ∀ i ∈ Finset.range 256, (v i) ^ 2 =
        if i = 0 then a ^ 2 else 0 := by
      intro i _
      rw [hv i]
      split_ifs <;> norm_num
    rw [Finset.sum_congr rfl h1, Finset.sum_ite_eq' (Finset.range 256) 0
      (fun _ => a ^ 2)]
    rw [if_pos (Finset.mem_range.mpr (by norm_num))]
    nlinarith
  rw [hsum, Real.sqrt_one]

/-- Claim C5, counterexample.  The similarity search applies no clamping:
for the query vector `-e₀` against a stored fingerprint `e₀` the returned
score is `-1`, while the claimed `max(0, min(1, dot))` would give `0`. -/
theorem search_score_not_clamped :
    (search_similar_trees qNeg [rowPos]).map (fun hit => hit.score) = [-1] ∧
      (-1 : ℝ) ≠ max 0 (min 1 (-1)) := by
  have hq : norm256 qNeg = 1 :=
    norm256_signed_one_hot qNeg (-1) (fun i => rfl) (by norm_num)
  have ht : norm256 rowPos.embedding = 1 :=
    norm256_signed_one_hot rowPos.embedding 1 (fun i => rfl) (by norm_num)
  have hdot : ∑ i ∈ Finset.range 256, qNeg i * rowPos.embedding i = -1 := by
    have h1 : ∀ i ∈ Finset.range 256, qNeg i * rowPos.embedding i =
        if i = 0 then (-1 : ℝ) else 0 := by
      intro i _
      show (if i = 0 then (-1 : ℝ) else 0) * (if i = 0 then (1 : ℝ) else 0) = _
      split_ifs <;> norm_num
    rw [Finset.sum_congr rfl h1, Finset.sum_ite_eq' (Finset.range 256) 0
      (fun _ => (-1 : ℝ))]
    rw [if_pos (Finset.mem_range.mpr (by norm_num))]
  have hscore : cosineScore qNeg rowPos.embedding = -1 := by
    unfold cosineScore
    rw [if_pos ⟨by rw [hq]; norm_num, by rw [ht]; norm_num⟩, hdot, hq, ht]
    norm_num
  constructor
  · show (([{ tree := rowPos, score := cosineScore qNeg rowPos.embedding }] :
        List SearchHit).mergeSort (fun a b => b.score ≤ a.score)).map
        (fun hit => hit.score) = [-1]
    rw [List.mergeSort_singleton, List.map_singleton, hscore]
  · norm_num

/-- Claim C5, amended.  Every score returned by the similarity search is
the raw (unclamped) cosine similarity of the query against the row's
stored fingerprint, and lies in `[-1, 1]`; `search_trees_by_structure`
passes these scores through unchanged.  Scores can be negative (see the
counterexample); no `max(0, min(1, ·))` clamp is applied in this code
path (only the out-of-scope HTTP layer clamps). -/
theorem search_scores (q : ℕ → ℝ) (rows : List StoredTree) :
    ∀ hit ∈ search_similar_trees q rows,
      hit.score = cosineScore q hit.tree.embedding ∧
        -1 ≤ hit.score ∧ hit.score ≤ 1 := by
  have bounds : ∀ t : ℕ → ℝ, -1 ≤ cosineScore q t ∧ cosineScore q t ≤ 1 := by
    intro t
    unfold cosineScore
    split_ifs with h
    · obtain ⟨hq, ht⟩ := h
      have hcs := Finset.sum_mul_sq_le_sq_mul_sq (Finset.range 256) q t
      have habs : |∑ i ∈ Finset.range 256, q i * t i| ≤ norm256 q * norm256 t := by
        rw [← Real.sqrt_sq_eq_abs]
        unfold norm256
        rw [← Real.sqrt_mul (Finset.sum_nonneg fun j _ => sq_nonneg (q j))]
        exact Real.sqrt_le_sqrt hcs
      have hpos : 0 < norm256 q * norm256 t := mul_pos hq ht
      constructor
      · rw [neg_le, ← neg_div]
        rw [div_le_one hpos]
        have := neg_abs_le (∑ i ∈ Finset.range 256, q i * t i)
        linarith [abs_nonneg (∑ i ∈ Finset.range 256, q i * t i)]
      · rw [div_le_one hpos]
        exact le_trans (le_abs_self _) habs
    · norm_num
  intro hit hmem
  unfold search_similar_trees at hmem
  rw [List.mem_mergeSort] at hmem
  obtain ⟨r, _, hr⟩ := List.mem_map.mp hmem
  rw [← hr]
  exact ⟨rfl, bounds r.embedding⟩

/-- The score-range statement instantiated on the one-row search of the
counterexample: the returned hit indeed carries an unclamped cosine score
within the interval from `-1` to `1`. -/
theorem search_scores_witness :
    ({ tree := rowPos, score := cosineScore qNeg rowPos.embedding } : SearchHit)
        ∈ search_similar_trees qNeg [rowPos] ∧
      (-1 : ℝ) ≤ cosineScore qNeg rowPos.embedding ∧
        cosineScore qNeg rowPos.embedding ≤ 1 := by
  have hmem : ({ tree := rowPos, score := cosineScore qNeg rowPos.embedding } : SearchHit)
      ∈ search_similar_trees qNeg [rowPos] := by
    show _ ∈ (([{ tree := rowPos, score := cosineScore qNeg rowPos.embedding }] :
        List SearchHit).mergeSort (fun a b => b.score ≤ a.score))
    rw [List.mergeSort_singleton]
    exact List.mem_singleton.mpr rfl
  exact ⟨hmem, (search_scores qNeg [rowPos] _ hmem).2.1,
    (search_scores qNeg [rowPos] _ hmem).2.2⟩

/-- Response record of a node query (`models.TreeNodeResponse`; the
`Any`-typed metadata dict is not modelled). -/
structure TreeNodeResponse where
  id : String
  name : Option String
  depth : ℕ
  branch_length : ℚ
  is_leaf : Bool
  sequence_id : Option String
  children_count : ℕ
deriving DecidableEq, Repr

/-- Conversion `_node_to_response`: the children count adds one per truthy
child id. -/
def node_to_response (node : TreeNode) : TreeNodeResponse :=
  { id := node.id, name := node.name, depth := node.depth,
    branch_length := node.branch_length, is_leaf := node.is_leaf,
    sequence_id := node.sequence_id,
    children_count := (optTruthy node.left_child_id).length +
      (optTruthy node.right_child_id).length }

/-- The `max_depth` early-exit test of `get_ancestors`:
`max_depth is not None and len(ancestors) >= max_depth`. -/
def mdReached : Option ℕ → ℕ → Bool
  | some m, acc => m ≤ acc
  | none, _ => false

/-- The parent-walking loop of `get_ancestors` at node level, with fuel
for the unbounded `while` (fuel `ns.length` suffices on well-formed
graphs): stop on a falsy (`None` or empty) parent id, on reaching the
`max_depth` bound (`acc` counts the responses collected so far) or on a
parent id that does not resolve; otherwise emit the parent and continue
from it. -/
def ancChain (ns : List TreeNode) : ℕ → TreeNode → ℕ → Option ℕ → List TreeNode
  | 0, _, _, _ => []
  | fuel + 1, cur, acc, md =>
    match cur.parent_id with
    | none => []
    | some pid =>
      if pid = "" then []
      else if mdReached md acc then []
      else
        match lookupNode ns pid with
        | none => []
        | some p => p :: ancChain ns fuel p (acc + 1) md

/-- Response of an ancestry query (`models.AncestryResponse`). -/
structure AncestryResponse where
  node_id : String
  ancestors : List TreeNodeResponse
  path_length : ℕ
deriving DecidableEq, Repr

/-- The ancestry query `get_ancestors(node_id, tree_id, max_depth,
include_self)` over the tree's node list: empty response when the node id
is absent, else the (optionally self-prefixed) chain of parents up to the
root, converted to responses. -/
def get_ancestors (ns : List TreeNode) (nodeId : String) (maxDepth : Option ℕ)
    (includeSelf : Bool) : AncestryResponse :=
  match lookupNode ns nodeId with
  | none => { node_id := nodeId, ancestors := [], path_length := 0 }
  | some st =>
    let selfPart := if includeSelf then [st] else []
    let ancestors := (selfPart ++
      ancChain ns ns.length st selfPart.length maxDepth).map node_to_response
    { node_id := nodeId, ancestors := ancestors, path_length := ancestors.length }

/-- The lowest-common-ancestor query `find_common_ancestor(id1, id2,
tree_id)`: walk the self-inclusive ancestor list of the second node and
return the first entry whose id occurs among the self-inclusive ancestors
of the first node; `None` when there is no common entry (in particular
when either node is absent). -/
def find_common_ancestor (ns : List TreeNode) (id1 id2 : String) :
    Option TreeNodeResponse :=
  let l1 := (get_ancestors ns id1 none true).ancestors
  let l2 := (get_ancestors ns id2 none true).ancestors
  l2.find? (fun x => l1.any (fun y => y.id == x.id))

/-- Well-formedness of a stored tree's node list, as guaranteed by the
node extraction (see `extract_nodes_invariants`): distinct non-empty ids,
resolvable parent ids, the parent-depth law, and depths bounded by the
list length (each ancestor is a distinct stored node). -/
def WFNodes (ns : List TreeNode) : Prop :=
  (ns.map (fun n => n.id)).Nodup ∧
  (∀ n ∈ ns, n.parent_id ≠ some "") ∧
  (∀ n ∈ ns, ∀ pid, n.parent_id = some pid → ∃ p ∈ ns, p.id = pid) ∧
  (∀ n ∈ ns, ∀ p ∈ ns, n.parent_id = some p.id → n.depth = p.depth + 1) ∧
  (∀ n ∈ ns, n.depth ≤ ns.length)

/-- On a list with duplicate-free ids, `find?` by a member's id returns
that member. -/
theorem find_by_id (l : List TreeNode) (hnd : (l.map (fun n => n.id)).Nodup)
    (p : TreeNode) (hp : p ∈ l) : l.find? (fun n => n.id == p.id) = some p := by
  induction l with
  | nil => cases hp
  | cons x xs ih =>
    rw [List.map_cons, List.nodup_cons] at hnd
    by_cases hx : x.id = p.id
    · have hxp : x = p := by
        rcases List.mem_cons.mp hp with h | h
        · exact h.symm
        · exfalso
          exact hnd.1 (hx ▸ List.mem_map_of_mem (fun n => n.id) h)
      rw [List.find?_cons_of_pos _ (by simp [hx])]
      rw [hxp]
    · rw [List.find?_cons_of_neg _ (by simp [hx])]
      apply ih hnd.2
      rcases List.mem_cons.mp hp with h | h
      · exact absurd (by rw [h] : x.id = p.id) hx
      · exact h

/-- On a well-formed node list, the per-request dict lookup of a member's
id returns that member. -/
theorem lookup_unique (ns : List TreeNode)
    (hnd : (ns.map (fun n => n.id)).Nodup) (p : TreeNode) (hp : p ∈ ns) :
    lookupNode ns p.id = some p := by
  unfold lookupNode
  apply find_by_id
  · rw [List.map_reverse]
    exact List.nodup_reverse.mpr hnd
  · exact List.mem_reverse.mpr hp

/-- A successful dict lookup returns a member whose id is the key. -/
theorem lookup_mem (ns : List TreeNode) (i : String) (p : TreeNode)
    (hp : lookupNode ns i = some p) : p ∈ ns ∧ p.id = i := by
  unfold lookupNode at hp
  constructor
  · exact List.mem_reverse.mp (List.mem_of_find?_eq_some hp)
  · have := List.find?_some hp
    simpa using this

/-- With no depth bound, the response counter of the ancestor walk is
irrelevant. -/
theorem ancChain_acc (ns : List TreeNode) :
    ∀ (fuel : ℕ) (n : TreeNode) (a b : ℕ),
      ancChain ns fuel n a none = ancChain ns fuel n b none := by
  intro fuel
  induction fuel with
  | zero => intro n a b; rfl
  | succ fuel ih =>
    intro n a b
    unfold ancChain
    split
    · rfl
    · simp only [mdReached, Bool.false_eq_true, if_false]
      split_ifs
      · rfl
      · split
        · rfl
        · rw [ih]

/-- The result of `find?` when exactly one member satisfies the
predicate. -/
theorem find?_eq_of_unique {α : Type} (l : List α) (p : α → Bool) (a : α)
    (ha : a ∈ l) (hpa : p a = true) (huniq : ∀ x ∈ l, p x = true → x = a) :
    l.find? p = some a := by
  induction l with
  | nil => cases ha
  | cons x xs ih =>
    by_cases hx : p x = true
    · rw [List.find?_cons_of_pos _ hx]
      rw [huniq x (List.mem_cons_self x xs) hx]
    · rw [List.find?_cons_of_neg _ (by simp [hx])]
      apply ih
      · rcases List.mem_cons.mp ha with h | h
        · exact absurd (h ▸ hpa) hx
        · exact h
      · intro y hy hpy
        exact huniq y (List.mem_cons_of_mem x hy) hpy

/-- One step of the unbounded ancestor walk when the parent resolves. -/
theorem ancChain_succ_some (ns : List TreeNode) (fuel : ℕ) (n : TreeNode)
    (acc : ℕ) (pid : String) (p : TreeNode) (hpid : n.parent_id = some pid)
    (hne : pid ≠ "") (hlk : lookupNode ns pid = some p) :
    ancChain ns (fuel + 1) n acc none = p :: ancChain ns fuel p (acc + 1) none := by
  conv_lhs => unfold ancChain
  simp [hpid, hne, hlk, mdReached]

/-- The ancestor walk from a parentless node is empty. -/
theorem ancChain_none (ns : List TreeNode) (fuel : ℕ) (n : TreeNode)
    (acc : ℕ) (md : Option ℕ) (hpid : n.parent_id = none) :
    ancChain ns fuel n acc md = [] := by
  cases fuel with
  | zero => rfl
  | succ fuel =>
    unfold ancChain
    simp [hpid]

/-- The canonical ancestor chain of a node: the unbounded walk with fuel
equal to the node's depth (which suffices on well-formed graphs). -/
def canonChain (ns : List TreeNode) (n : TreeNode) : List TreeNode :=
  ancChain ns n.depth n 0 none

/-- The self-inclusive ancestor path of a node. -/
def pathTo (ns : List TreeNode) (n : TreeNode) : List TreeNode :=
  n :: canonChain ns n

/-- On a well-formed node list, any fuel of at least the node's depth
yields the canonical chain. -/
theorem ancChain_fuel (ns : List TreeNode) (hwf : WFNodes ns) :
    ∀ (d : ℕ) (n : TreeNode), n ∈ ns → n.depth ≤ d →
      ∀ f, n.depth ≤ f → ancChain ns f n 0 none = canonChain ns n := by
  obtain ⟨hnd, hne, hres, hdep, _⟩ := hwf
  intro d
  induction d with
  | zero =>
    intro n hn hd f hf
    have key : ∀ g, ancChain ns g n 0 none = [] := by
      intro g
      cases hpid : n.parent_id with
      | none => exact ancChain_none ns g n 0 none hpid
      | some pid =>
        exfalso
        obtain ⟨p, hp, hpid2⟩ := hres n hn pid hpid
        have := hdep n hn p hp (by rw [hpid, hpid2])
        omega
    rw [key f]
    unfold canonChain
    rw [key n.depth]
  | succ d ih =>
    intro n hn hd f hf
    by_cases hcase : n.depth ≤ d
    · exact ih n hn hcase f hf
    · have hdd : n.depth = d + 1 := by omega
      cases hpid : n.parent_id with
      | none =>
        rw [ancChain_none ns f n 0 none hpid]
        unfold canonChain
        rw [ancChain_none ns n.depth n 0 none hpid]
      | some pid =>
        have hpe : pid ≠ "" := by
          intro hq
          exact hne n hn (by rw [hpid, hq])
        obtain ⟨p, hp, hpid2⟩ := hres n hn pid hpid
        have hlk : lookupNode ns pid = some p := by
          rw [← hpid2]
          exact lookup_unique ns hnd p hp
        have hdp : n.depth = p.depth + 1 := hdep n hn p hp (by rw [hpid, hpid2])
        cases f with
        | zero => omega
        | succ f =>
          rw [ancChain_succ_some ns f n 0 pid p hpid hpe hlk]
          unfold canonChain
          rw [hdp, ancChain_succ_some ns p.depth n 0 pid p hpid hpe hlk]
          congr 1
          rw [ancChain_acc ns f p 1 0, ancChain_acc ns p.depth p 1 0]
          have hpd : p.depth ≤ d := by omega
          rw [ih p hp hpd f (by omega), ih p hp hpd p.depth (le_refl _)]

/-- On a well-formed node list, the canonical chain of a node with a
resolving parent unfolds by one parent step. -/
theorem canonChain_unfold (ns : List TreeNode) (hwf : WFNodes ns)
    (n : TreeNode) (hn : n ∈ ns) (pid : String) (hpid : n.parent_id = some pid)
    (p : TreeNode) (hp : p ∈ ns) (hpid2 : p.id = pid) :
    canonChain ns n = p :: canonChain ns p := by
  obtain ⟨hnd, hne, hres, hdep, _⟩ := hwf
  have hpe : pid ≠ "" := by
    intro hq
    exact hne n hn (by rw [hpid, hq])
  have hlk : lookupNode ns pid = some p := by
    rw [← hpid2]
    exact lookup_unique ns hnd p hp
  have hdp : n.depth = p.depth + 1 := hdep n hn p hp (by rw [hpid, hpid2])
  unfold canonChain
  rw [hdp, ancChain_succ_some ns p.depth n 0 pid p hpid hpe hlk,
    ancChain_acc ns p.depth p 1 0]

/-- On a well-formed node list, the ancestry query for a stored node (self
included, no depth bound) returns the canonical path converted to
responses. -/
theorem get_ancestors_eq (ns : List TreeNode) (hwf : WFNodes ns)
    (n : TreeNode) (hn : n ∈ ns) :
    (get_ancestors ns n.id none true).ancestors =
      (pathTo ns n).map node_to_response := by
  have hlk : lookupNode ns n.id = some n := lookup_unique ns hwf.1 n hn
  unfold get_ancestors
  rw [hlk]
  show ([n] ++ ancChain ns ns.length n 1 none).map node_to_response = _
  rw [ancChain_acc ns ns.length n 1 0,
    ancChain_fuel ns hwf n.depth n hn (le_refl _) ns.length (hwf.2.2.2.2 n hn)]
  rfl

/-- Members of the canonical chain are stored nodes of strictly smaller
depth. -/
theorem canonChain_mem (ns : List TreeNode) (hwf : WFNodes ns) :
    ∀ (d : ℕ) (n : TreeNode), n ∈ ns → n.depth ≤ d →
      ∀ x ∈ canonChain ns n, x ∈ ns ∧ x.depth < n.depth := by
  intro d
  induction d with
  | zero =>
    intro n hn hd x hx
    have h0 : n.depth = 0 := by omega
    unfold canonChain at hx
    rw [h0] at hx
    cases hx
  | succ d ih =>
    intro n hn hd x hx
    cases hpid : n.parent_id with
    | none =>
      rw [canonChain, ancChain_none ns n.depth n 0 none hpid] at hx
      cases hx
    | some pid =>
      obtain ⟨p, hp, hpid2⟩ := hwf.2.2.1 n hn pid hpid
      have hdp : n.depth = p.depth + 1 :=
        hwf.2.2.2.1 n hn p hp (by rw [hpid, hpid2])
      rw [canonChain_unfold ns hwf n hn pid hpid p hp hpid2] at hx
      rcases List.mem_cons.mp hx with h | h
      · rw [h]
        exact ⟨hp, by omega⟩
      · obtain ⟨h1, h2⟩ := ih p hp (by omega) x h
        exact ⟨h1, by omega⟩

/-- Members of the self-inclusive path are stored nodes. -/
theorem pathTo_mem (ns : List TreeNode) (hwf : WFNodes ns) (n : TreeNode)
    (hn : n ∈ ns) : ∀ x ∈ pathTo ns n, x ∈ ns := by
  intro x hx
  rcases List.mem_cons.mp hx with h | h
  · rw [h]; exact hn
  · exact (canonChain_mem ns hwf n.depth n hn (le_refl _) x h).1

/-- Members of the self-inclusive path have depth at most the node's, with
equality only for the node itself. -/
theorem pathTo_depth (ns : List TreeNode) (hwf : WFNodes ns) (n : TreeNode)
    (hn : n ∈ ns) : ∀ x ∈ pathTo ns n, x.depth ≤ n.depth ∧
      (x.depth = n.depth → x = n) := by
  intro x hx
  rcases List.mem_cons.mp hx with h | h
  · rw [h]
    exact ⟨le_refl _, fun _ => rfl⟩
  · have := (canonChain_mem ns hwf n.depth n hn (le_refl _) x h).2
    exact ⟨by omega, by omega⟩

/-- The self-inclusive path is duplicate-free. -/
theorem pathTo_nodup (ns : List TreeNode) (hwf : WFNodes ns) :
    ∀ (d : ℕ) (n : TreeNode), n ∈ ns → n.depth ≤ d → (pathTo ns n).Nodup := by
  intro d
  induction d with
  | zero =>
    intro n hn hd
    have h0 : n.depth = 0 := by omega
    unfold pathTo canonChain
    rw [h0]
    exact List.nodup_singleton n
  | succ d ih =>
    intro n hn hd
    cases hpid : n.parent_id with
    | none =>
      unfold pathTo
      rw [canonChain, ancChain_none ns n.depth n 0 none hpid]
      exact List.nodup_singleton n
    | some pid =>
      obtain ⟨p, hp, hpid2⟩ := hwf.2.2.1 n hn pid hpid
      have hdp : n.depth = p.depth + 1 :=
        hwf.2.2.2.1 n hn p hp (by rw [hpid, hpid2])
      unfold pathTo
      rw [canonChain_unfold ns hwf n hn pid hpid p hp hpid2]
      rw [List.nodup_cons]
      constructor
      · intro hmem
        have := pathTo_depth ns hwf p hp n hmem
        omega
      · exact ih p hp (by omega)

/-- The path of a path member is a suffix of the whole path. -/
theorem pathTo_suffix (ns : List TreeNode) (hwf : WFNodes ns) :
    ∀ (d : ℕ) (n : TreeNode), n ∈ ns → n.depth ≤ d →
      ∀ x ∈ pathTo ns n, pathTo ns x <:+ pathTo ns n := by
  intro d
  induction d with
  | zero =>
    intro n hn hd x hx
    have h0 : n.depth = 0 := by omega
    unfold pathTo canonChain at hx ⊢
    rw [h0] at hx
    rcases List.mem_singleton.mp hx with h
    rw [h, h0]
  | succ d ih =>
    intro n hn hd x hx
    rcases List.mem_cons.mp hx with h | h
    · rw [h]
    · cases hpid : n.parent_id with
      | none =>
        rw [canonChain, ancChain_none ns n.depth n 0 none hpid] at h
        cases h
      | some pid =>
        obtain ⟨p, hp, hpid2⟩ := hwf.2.2.1 n hn pid hpid
        have hdp : n.depth = p.depth + 1 :=
          hwf.2.2.2.1 n hn p hp (by rw [hpid, hpid2])
        rw [canonChain_unfold ns hwf n hn pid hpid p hp hpid2] at h
        have hsub : pathTo ns x <:+ pathTo ns p := ih p hp (by omega) x h
        apply hsub.trans
        show pathTo ns p <:+ n :: canonChain ns n
        rw [canonChain_unfold ns hwf n hn pid hpid p hp hpid2]
        exact List.suffix_cons n (pathTo ns p)

/-- Every self-inclusive path contains a parentless node. -/
theorem pathTo_root (ns : List TreeNode) (hwf : WFNodes ns) :
    ∀ (d : ℕ) (n : TreeNode), n ∈ ns → n.depth ≤ d →
      ∃ r ∈ pathTo ns n, r.parent_id = none := by
  intro d
  induction d with
  | zero =>
    intro n hn hd
    refine ⟨n, List.mem_cons_self _ _, ?_⟩
    cases hpid : n.parent_id with
    | none => rfl
    | some pid =>
      exfalso
      obtain ⟨p, hp, hpid2⟩ := hwf.2.2.1 n hn pid hpid
      have := hwf.2.2.2.1 n hn p hp (by rw [hpid, hpid2])
      omega
  | succ d ih =>
    intro n hn hd
    cases hpid : n.parent_id with
    | none => exact ⟨n, List.mem_cons_self _ _, hpid⟩
    | some pid =>
      obtain ⟨p, hp, hpid2⟩ := hwf.2.2.1 n hn pid hpid
      have hdp : n.depth = p.depth + 1 :=
        hwf.2.2.2.1 n hn p hp (by rw [hpid, hpid2])
      obtain ⟨r, hr, hrp⟩ := ih p hp (by omega)
      refine ⟨r, ?_, hrp⟩
      show r ∈ n :: canonChain ns n
      rw [canonChain_unfold ns hwf n hn pid hpid p hp hpid2]
      exact List.mem_cons_of_mem n hr

/-- Any over a mapped list, with map between different types. -/
theorem any_map_g {α β : Type} (f : α → β) (l : List α) (p : β → Bool) :
    (l.map f).any p = l.any (fun x => p (f x)) := by
  induction l with
  | nil => rfl
  | cons x xs ih => simp only [List.map_cons, List.any_cons, ih]

/-- Stored nodes are determined by their ids. -/
theorem id_inj (ns : List TreeNode) (hwf : WFNodes ns) :
    ∀ x ∈ ns, ∀ y ∈ ns, x.id = y.id → x = y := by
  intro x hx y hy hxy
  exact List.inj_on_of_nodup_map hwf.1 hx hy hxy

/-- The id-membership test used by the LCA search holds exactly on path
members. -/
theorem pred_any_iff (ns : List TreeNode) (hwf : WFNodes ns)
    (na : TreeNode) (hna : na ∈ ns) (z : TreeNode) (hz : z ∈ ns) :
    ((pathTo ns na).any (fun y => y.id == z.id) = true) ↔ z ∈ pathTo ns na := by
  rw [List.any_eq_true]
  constructor
  · rintro ⟨y, hy, hyz⟩
    have hyz2 : y = z :=
      id_inj ns hwf y (pathTo_mem ns hwf na hna y hy) z hz (beq_iff_eq.mp hyz)
    rw [← hyz2]
    exact hy
  · intro hzin
    exact ⟨z, hzin, beq_iff_eq.mpr rfl⟩

/-- Two suffixes of a duplicate-free list with the same head coincide:
auxiliary one-sided form. -/
theorem suffix_head_aux {α : Type} {l s1 s2 : List α} (hnd : l.Nodup)
    (h2 : s2 <:+ l) (h12 : s1 <:+ s2) {c : α} {t1 t2 : List α}
    (e1 : s1 = c :: t1) (e2 : s2 = c :: t2) : s1 = s2 := by
  obtain ⟨u, hu⟩ := h12
  cases u with
  | nil =>
    rw [List.nil_append] at hu
    exact hu
  | cons a u2 =>
    exfalso
    have hnd2 : s2.Nodup := List.Nodup.sublist h2.sublist hnd
    rw [e1, e2] at hu
    rw [e2, List.nodup_cons] at hnd2
    rw [List.cons_append] at hu
    injection hu with ha ht
    apply hnd2.1
    rw [← ht]
    exact List.mem_append_right _ (List.mem_cons_self _ _)

/-- Two suffixes of a duplicate-free list with the same head coincide. -/
theorem suffix_head_eq {α : Type} {l s1 s2 : List α} (hnd : l.Nodup)
    (h1 : s1 <:+ l) (h2 : s2 <:+ l) {c : α} {t1 t2 : List α}
    (e1 : s1 = c :: t1) (e2 : s2 = c :: t2) : s1 = s2 := by
  rcases List.suffix_or_suffix_of_suffix h1 h2 with h | h
  · exact suffix_head_aux hnd h2 h e1 e2
  · exact (suffix_head_aux hnd h1 h e2 e1).symm

/-- Splitting a canonical path at a member yields that member's own
canonical path as the tail part. -/
theorem path_decomp_tail (ns : List TreeNode) (hwf : WFNodes ns)
    (n : TreeNode) (hn : n ∈ ns) (c : TreeNode) (l1 l2 : List TreeNode)
    (hdec : pathTo ns n = l1 ++ c :: l2) : c :: l2 = pathTo ns c := by
  have hcmem : c ∈ pathTo ns n := by
    rw [hdec]
    exact List.mem_append_right _ (List.mem_cons_self _ _)
  have hsuf1 : c :: l2 <:+ pathTo ns n := ⟨l1, hdec.symm⟩
  have hsuf2 : pathTo ns c <:+ pathTo ns n :=
    pathTo_suffix ns hwf n.depth n hn (le_refl _) c hcmem
  have hnd : (pathTo ns n).Nodup := pathTo_nodup ns hwf n.depth n hn (le_refl _)
  exact suffix_head_eq hnd hsuf1 hsuf2 rfl rfl

/-- For stored nodes, the LCA search is the node-level search over
canonical paths, converted to a response at the end. -/
theorem fca_node (ns : List TreeNode) (hwf : WFNodes ns)
    (na : TreeNode) (hna : na ∈ ns) (nb : TreeNode) (hnb : nb ∈ ns) :
    find_common_ancestor ns na.id nb.id =
      ((pathTo ns nb).find?
        (fun x => (pathTo ns na).any (fun y => y.id == x.id))).map
        node_to_response := by
  unfold find_common_ancestor
  simp only [get_ancestors_eq ns hwf na hna, get_ancestors_eq ns hwf nb hnb]
  rw [List.find?_map]
  have hpred : ((fun x : TreeNodeResponse =>
        ((pathTo ns na).map node_to_response).any (fun y => y.id == x.id)) ∘
        node_to_response) =
      (fun x : TreeNode => (pathTo ns na).any (fun y => y.id == x.id)) := by
    funext x
    show ((pathTo ns na).map node_to_response).any
        (fun y => y.id == (node_to_response x).id) = _
    rw [any_map_g]
    rfl
  rw [hpred]

/-- A hit of the node-level LCA search is a common path member of maximal
depth, and the only common member at that depth. -/
theorem fca_find_spec (ns : List TreeNode) (hwf : WFNodes ns)
    (na : TreeNode) (hna : na ∈ ns) (nb : TreeNode) (hnb : nb ∈ ns)
    (c : TreeNode)
    (hc : (pathTo ns nb).find?
        (fun x => (pathTo ns na).any (fun y => y.id == x.id)) = some c) :
    c ∈ pathTo ns nb ∧ c ∈ pathTo ns na ∧
      ∀ z ∈ pathTo ns nb, z ∈ pathTo ns na →
        z.depth ≤ c.depth ∧ (z.depth = c.depth → z = c) := by
  rw [List.find?_eq_some] at hc
  obtain ⟨hpc, l1, l2, hdec, hneg⟩ := hc
  have hcb : c ∈ pathTo ns nb := by
    rw [hdec]
    exact List.mem_append_right _ (List.mem_cons_self _ _)
  have hcns : c ∈ ns := pathTo_mem ns hwf nb hnb c hcb
  have hca : c ∈ pathTo ns na := (pred_any_iff ns hwf na hna c hcns).mp hpc
  refine ⟨hcb, hca, ?_⟩
  intro z hzb hza
  have hzns : z ∈ ns := pathTo_mem ns hwf nb hnb z hzb
  have hznl1 : z ∉ l1 := by
    intro hzl1
    have hfalse : ((pathTo ns na).any (fun y => y.id == z.id)) = false := by
      simpa using hneg z hzl1
    have htrue := (pred_any_iff ns hwf na hna z hzns).mpr hza
    rw [hfalse] at htrue
    cases htrue
  have hzcl2 : z ∈ c :: l2 := by
    rw [hdec] at hzb
    rcases List.mem_append.mp hzb with h | h
    · exact absurd h hznl1
    · exact h
  have htail : c :: l2 = pathTo ns c := path_decomp_tail ns hwf nb hnb c l1 l2 hdec
  rw [htail] at hzcl2
  exact pathTo_depth ns hwf c hcns z hzcl2

/-- LCA idempotence at node level: the search of a stored node against
itself returns that node. -/
theorem lca_self (ns : List TreeNode) (hwf : WFNodes ns)
    (n : TreeNode) (hn : n ∈ ns) :
    find_common_ancestor ns n.id n.id = some (node_to_response n) := by
  rw [fca_node ns hwf n hn n hn]
  have hpred : (pathTo ns n).any (fun y => y.id == n.id) = true :=
    (pred_any_iff ns hwf n hn n hn).mpr (List.mem_cons_self _ _)
  have hfind : (pathTo ns n).find?
      (fun x => (pathTo ns n).any (fun y => y.id == x.id)) = some n :=
    List.find?_cons_of_pos (canonChain ns n) hpred
  rw [hfind]
  rfl

/-- LCA symmetry at node level. -/
theorem lca_comm (ns : List TreeNode) (hwf : WFNodes ns)
    (a : TreeNode) (ha : a ∈ ns) (b : TreeNode) (hb : b ∈ ns) :
    find_common_ancestor ns a.id b.id = find_common_ancestor ns b.id a.id := by
  rw [fca_node ns hwf a ha b hb, fca_node ns hwf b hb a ha]
  cases hFA : (pathTo ns b).find?
      (fun x => (pathTo ns a).any (fun y => y.id == x.id)) with
  | none =>
    cases hFB : (pathTo ns a).find?
        (fun x => (pathTo ns b).any (fun y => y.id == x.id)) with
    | none => rfl
    | some c =>
      exfalso
      obtain ⟨hcA, hcB, _⟩ := fca_find_spec ns hwf b hb a ha c hFB
      have hcns : c ∈ ns := pathTo_mem ns hwf a ha c hcA
      have hnone := List.find?_eq_none.mp hFA c hcB
      exact hnone ((pred_any_iff ns hwf a ha c hcns).mpr hcA)
  | some c =>
    cases hFB : (pathTo ns a).find?
        (fun x => (pathTo ns b).any (fun y => y.id == x.id)) with
    | none =>
      exfalso
      obtain ⟨hcB, hcA, _⟩ := fca_find_spec ns hwf a ha b hb c hFA
      have hcns : c ∈ ns := pathTo_mem ns hwf b hb c hcB
      have hnone := List.find?_eq_none.mp hFB c hcA
      exact hnone ((pred_any_iff ns hwf b hb c hcns).mpr hcB)
    | some c2 =>
      obtain ⟨hcB, hcA, hmax⟩ := fca_find_spec ns hwf a ha b hb c hFA
      obtain ⟨hc2A, hc2B, hmax2⟩ := fca_find_spec ns hwf b hb a ha c2 hFB
      have h1 := hmax c2 hc2B hc2A
      have h2 := hmax2 c hcA hcB
      have hcc : c2 = c := h1.2 (le_antisymm h1.1 h2.1)
      rw [hcc]

/-- LCA against a unique root returns the root. -/
theorem lca_root (ns : List TreeNode) (hwf : WFNodes ns)
    (r : TreeNode) (hrmem : r ∈ ns) (hr : r.parent_id = none)
    (huniq : ∀ n ∈ ns, n.parent_id = none → n = r)
    (x : TreeNode) (hxmem : x ∈ ns) :
    find_common_ancestor ns r.id x.id = some (node_to_response r) := by
  rw [fca_node ns hwf r hrmem x hxmem]
  have hpathr : pathTo ns r = [r] := by
    unfold pathTo canonChain
    rw [ancChain_none ns r.depth r 0 none hr]
  have hrx : r ∈ pathTo ns x := by
    obtain ⟨r0, hr0mem, hr0p⟩ := pathTo_root ns hwf x.depth x hxmem (le_refl _)
    have hr0 : r0 = r := huniq r0 (pathTo_mem ns hwf x hxmem r0 hr0mem) hr0p
    rw [← hr0]
    exact hr0mem
  have hfind : (pathTo ns x).find?
      (fun z => (pathTo ns r).any (fun y => y.id == z.id)) = some r := by
    apply find?_eq_of_unique _ _ r hrx
    · show (pathTo ns r).any (fun y => y.id == r.id) = true
      rw [hpathr]
      simp
    · intro z hz hpz
      rw [hpathr] at hpz
      have hid : r.id = z.id := by simpa using hpz
      exact id_inj ns hwf z (pathTo_mem ns hwf x hxmem z hz) r hrmem hid.symm
  rw [hfind]
  rfl

/-- A concrete stored tree for exercising the LCA laws: a root with two
leaf children. -/
def demoRoot : TreeNode :=
  { id := "r", tree_id := "t", name := none, sequence_id := none,
    parent_id := none, left_child_id := some "a", right_child_id := some "b",
    depth := 0, branch_length := 0, is_leaf := false }

/-- Left leaf of the demo tree. -/
def demoA : TreeNode :=
  { id := "a", tree_id := "t", name := some "A", sequence_id := none,
    parent_id := some "r", left_child_id := none, right_child_id := none,
    depth := 1, branch_length := 1/2, is_leaf := true }

/-- Right leaf of the demo tree. -/
def demoB : TreeNode :=
  { id := "b", tree_id := "t", name := some "B", sequence_id := none,
    parent_id := some "r", left_child_id := none, right_child_id := none,
    depth := 1, branch_length := 2, is_leaf := true }

/-- Node list of the demo tree. -/
def demoNodes : List TreeNode := [demoRoot, demoA, demoB]

/-- The demo node list is well-formed. -/
theorem demoNodes_wf : WFNodes demoNodes := by
  refine ⟨?_, ?_, ?_, ?_, ?_⟩
  · with_unfolding_all decide
  · with_unfolding_all decide
  · intro n hn pid hpid
    simp only [demoNodes, List.mem_cons, List.not_mem_nil, or_false] at hn
    rcases hn with rfl | rfl | rfl
    · cases hpid
    · cases hpid
      exact ⟨demoRoot, List.mem_cons_self _ _, rfl⟩
    · cases hpid
      exact ⟨demoRoot, List.mem_cons_self _ _, rfl⟩
  · with_unfolding_all decide
  · with_unfolding_all decide

/-- The demo root is the only parentless node. -/
theorem demoRoot_unique : ∀ n ∈ demoNodes, n.parent_id = none → n = demoRoot := by
  with_unfolding_all decide

/-- C8: LCA laws on every well-formed stored tree (as produced by node
extraction, see `extract_nodes_invariants`): `find_common_ancestor(n, n)`
returns `n`; the search is symmetric in its two node arguments; and
against the unique parentless root it returns the root. -/
theorem lca_laws (ns : List TreeNode) (hwf : WFNodes ns) :
    (∀ n ∈ ns, find_common_ancestor ns n.id n.id = some (node_to_response n)) ∧
    (∀ a ∈ ns, ∀ b ∈ ns,
      find_common_ancestor ns a.id b.id = find_common_ancestor ns b.id a.id) ∧
    (∀ r ∈ ns, r.parent_id = none →
      (∀ n ∈ ns, n.parent_id = none → n = r) →
      ∀ x ∈ ns, find_common_ancestor ns r.id x.id = some (node_to_response r)) :=
  ⟨fun n hn => lca_self ns hwf n hn,
   fun a ha b hb => lca_comm ns hwf a ha b hb,
   fun r hr hrp huniq x hx => lca_root ns hwf r hr hrp huniq x hx⟩

/-- The LCA laws instantiated on the concrete demo tree. -/
theorem lca_laws_witness :
    WFNodes demoNodes ∧
    find_common_ancestor demoNodes "a" "a" = some (node_to_response demoA) ∧
    find_common_ancestor demoNodes "a" "b" =
      find_common_ancestor demoNodes "b" "a" ∧
    find_common_ancestor demoNodes "r" "b" = some (node_to_response demoRoot) := by
  have h := lca_laws demoNodes demoNodes_wf
  exact ⟨demoNodes_wf,
    h.1 demoA (List.mem_cons_of_mem _ (List.mem_cons_self _ _)),
    h.2.1 demoA (List.mem_cons_of_mem _ (List.mem_cons_self _ _)) demoB
      (List.mem_cons_of_mem _ (List.mem_cons_of_mem _ (List.mem_cons_self _ _))),
    h.2.2 demoRoot (List.mem_cons_self _ _) rfl demoRoot_unique demoB
      (List.mem_cons_of_mem _ (List.mem_cons_of_mem _ (List.mem_cons_self _ _)))⟩
